import Mathlib

/-!
# bettercap: the scriptable request object of the HTTP proxy

A shallow embedding of `modules/http_proxy_js_request.go` and a verification
of its change tracking, body rebuffering, header accessors, form parsing and
request reconstruction.

A Go `string` is a byte sequence; it is modelled as a list of characters, one
character per byte, so that literals read as text.  The `*http.Request` held
by the object is shared with the rest of the proxy, so it is part of the
state every operation returns.
-/

set_option autoImplicit false

namespace JSRequestModel

/-- A Go string. -/
abbrev Str := List Char

/-! ## The Go library functions the file calls -/

/-- Go `strings.ToLower` on a string of ASCII bytes: `A`..`Z` go to `a`..`z`,
every other byte is kept.  (On other strings Go folds every Unicode letter;
what is proved for all names takes `strings.ToLower` as a parameter
instead.) -/
def ToLower (s : Str) : Str := s.map Char.toLower

/-- Prepends a character to the first piece of a split. -/
def consHead (c : Char) : List Str → List Str
  | [] => [[c]]
  | p :: ps => (c :: p) :: ps

/-- Go `strings.Split(s, sep)` for a one-character separator: the pieces
between successive occurrences of `sep`; always at least one piece. -/
def splitChar (sep : Char) : Str → List Str
  | [] => [[]]
  | c :: s => if c = sep then [] :: splitChar sep s else consHead c (splitChar sep s)

/-- Go `strings.Split(s, "\r\n")`: the pieces between successive
non-overlapping occurrences of the two-character terminator, scanning from
the left. -/
def splitCRLF : Str → List Str
  | [] => [[]]
  | [c] => [[c]]
  | c :: d :: s =>
    if c = '\r' ∧ d = '\n' then [] :: splitCRLF s
    else consHead c (splitCRLF (d :: s))

/-- Go `strings.Join(pieces, sep)` for a one-character separator. -/
def joinChar (sep : Char) : List Str → Str
  | [] => []
  | [p] => p
  | p :: q :: ps => p ++ sep :: joinChar sep (q :: ps)

/-- Go `strings.Replace(s, old, new, 1)`: the first occurrence of `old` in
`s`, scanning from the left, is replaced by `new`; `s` is returned unchanged
when `old` does not occur.  (An empty `old` occurs at the very start.) -/
def replaceFirst (old new : Str) : Str → Str
  | [] => if old = [] then new else []
  | c :: s =>
    if old.isPrefixOf (c :: s) then new ++ (c :: s).drop old.length
    else c :: replaceFirst old new s

/-- Cuts a text at its first `": "`: the text before it and the text after
it, or `none` when there is no `": "`. -/
def cutColonSpace : Str → Option (Str × Str)
  | [] => none
  | [_] => none
  | c :: d :: s =>
    if c = ':' ∧ d = ' ' then some ([], s)
    else (cutColonSpace (d :: s)).map (fun p => (c :: p.1, p.2))

/-- The two capture groups of `header_regexp`. -/
inductive Group where
  | name
  | value
  deriving DecidableEq, Repr

/-- What `header_regexp.ReplaceAllString(seg, "$1")` (or `"$2"`) makes of a
text without line feed.  The pattern `(.*?): (.*)` matches from the start of
the text when it holds a `": "`: the lazy first group stops at the first
`": "`, the greedy second group takes the rest, and the whole text is
replaced by the chosen group.  A text without `": "` has no match and is
returned as it is. -/
def replaceSegment (g : Group) (seg : Str) : Str :=
  match cutColonSpace seg with
  | none => seg
  | some (n, v) =>
    match g with
    | Group.name => n
    | Group.value => v

/-- Go `header_regexp.ReplaceAllString(s, "$1")` (group `name`) and
`header_regexp.ReplaceAllString(s, "$2")` (group `value`) with
`header_regexp = (.*?): (.*)`.  In Go `.` does not match a line feed, so a
match never crosses one: every stretch between line feeds is rewritten on
its own and the line feeds are copied over. -/
def ReplaceAllString (g : Group) (s : Str) : Str :=
  joinChar '\n' ((splitChar '\n' s).map (replaceSegment g))

/-! ## The data model -/

/-- An `io.ReadCloser` as `ioutil.ReadAll` sees it: the bytes it still
delivers, and whether reading ends in an error instead of end-of-file. -/
structure ReadCloser where
  pending : Str
  broken : Bool
  deriving DecidableEq, Repr

/-- Go `ioutil.ReadAll(r)`: the bytes read, whether an error was returned,
and the reader afterwards (nothing is left to deliver). -/
def ReadAll (r : ReadCloser) : Str × Bool × ReadCloser :=
  (r.pending, r.broken, { pending := [], broken := r.broken })

/-- Go `ioutil.NopCloser(bytes.NewBuffer(raw))`: a fresh reader positioned at
the start of `raw` that never fails. -/
def NewBuffer (raw : Str) : ReadCloser :=
  { pending := raw, broken := false }

/-- The fields of `url.URL` this file reads. -/
structure URL where
  Scheme : Str
  Path : Str
  RawQuery : Str
  Port : Str
  deriving DecidableEq, Repr

/-- The fields of the inbound `http.Request` this file reads.  `Header` lists
the entries of the header map in the order the `range` loop visits them. -/
structure Request where
  RemoteAddr : Str
  Method : Str
  ProtoMajor : Int
  ProtoMinor : Int
  URL : URL
  Host : Str
  Header : List (Str × List Str)
  Body : ReadCloser
  deriving DecidableEq, Repr

/-- The Go struct `JSRequest`. -/
structure JSRequest where
  Client : Str
  Method : Str
  Version : Str
  Scheme : Str
  Path : Str
  Query : Str
  Hostname : Str
  ContentType : Str
  Headers : Str
  Body : Str
  req : Request
  refHash : Str
  bodyRead : Bool
  deriving DecidableEq, Repr

/-! ## Construction and fingerprinting -/

/-- Go `fmt.Sprintf("%d", n)`. -/
def fmtInt (n : Int) : Str := (toString n).toList

/-- `JSRequest.NewHash`. -/
def NewHash (j : JSRequest) : Str :=
  let hash := j.Client ++ '.' :: j.Method ++ '.' :: j.Version ++ '.' :: j.Scheme ++ '.' ::
    j.Hostname ++ '.' :: j.Path ++ '.' :: j.Query ++ '.' :: j.ContentType ++ '.' :: j.Headers
  hash ++ '.' :: j.Body

/-- `JSRequest.UpdateHash`. -/
def UpdateHash (j : JSRequest) : JSRequest :=
  { j with refHash := NewHash j }

/-- `JSRequest.WasModified`. -/
def WasModified (j : JSRequest) : Bool :=
  if j.bodyRead then true
  else decide (NewHash j ≠ j.refHash)

/-- The inner loop of `NewJSRequest` over the values of one header name:
the running `headers` text and `cType`. -/
def serializeValues (name : Str) : List Str → Str × Str → Str × Str
  | [], acc => acc
  | value :: values, (headers, cType) =>
    serializeValues name values
      (headers ++ name ++ [':', ' '] ++ value ++ ['\r', '\n'],
       if ToLower name = "content-type".toList then value else cType)

/-- The outer loop of `NewJSRequest` over the header map. -/
def serializeHeader : List (Str × List Str) → Str × Str → Str × Str
  | [], acc => acc
  | (name, values) :: rest, acc => serializeHeader rest (serializeValues name values acc)

/-- `NewJSRequest`. -/
def NewJSRequest (req : Request) : JSRequest :=
  let hc := serializeHeader req.Header ([], [])
  let jreq : JSRequest :=
    { Client := (splitChar ':' req.RemoteAddr).headD []
      Method := req.Method
      Version := fmtInt req.ProtoMajor ++ '.' :: fmtInt req.ProtoMinor
      Scheme := req.URL.Scheme
      Hostname := req.Host
      Path := req.URL.Path
      Query := req.URL.RawQuery
      ContentType := hc.2
      Headers := hc.1
      Body := []
      req := req
      refHash := []
      bodyRead := false }
  UpdateHash jreq

/-! ## Body materialisation -/

/-- `JSRequest.ReadBody`: the returned string and the object afterwards
(with the underlying request, whose stream the call replaces). -/
def ReadBody (j : JSRequest) : Str × JSRequest :=
  match ReadAll j.req.Body with
  | (raw, err, drained) =>
    if err then
      ([], { j with req := { j.req with Body := drained } })
    else
      (raw, { j with
                Body := raw
                bodyRead := true
                req := { j.req with Body := NewBuffer raw } })

/-! ## Header accessors -/

/-- The loop of `JSRequest.GetHeader` over the lines of the block; `lower`
is Go `strings.ToLower`. -/
def getHeaderLoop (lower : Str → Str) (name deflt : Str) : List Str → Str
  | [] => deflt
  | line :: rest =>
    let header_name := ReplaceAllString Group.name line
    let header_value := ReplaceAllString Group.value line
    if lower name = lower header_name then header_value
    else getHeaderLoop lower name deflt rest

/-- `JSRequest.GetHeader`, with Go `strings.ToLower` as the parameter
`lower`. -/
def GetHeaderWith (lower : Str → Str) (j : JSRequest) (name deflt : Str) : Str :=
  getHeaderLoop lower name deflt (splitCRLF j.Headers)

/-- `JSRequest.GetHeader` on ASCII names. -/
def GetHeader (j : JSRequest) (name deflt : Str) : Str :=
  GetHeaderWith ToLower j name deflt

/-- The loop of `JSRequest.SetHeader` over the lines of the block `all`;
the result is the new `Headers` text; `lower` is Go `strings.ToLower`. -/
def setHeaderLoop (lower : Str → Str) (name value all : Str) : List Str → Str
  | [] => all ++ name ++ [':', ' '] ++ value ++ ['\r', '\n']
  | line :: rest =>
    let header_name := ReplaceAllString Group.name line
    let header_value := ReplaceAllString Group.value line
    if lower name = lower header_name then
      let old_header := header_name ++ [':', ' '] ++ header_value ++ ['\r', '\n']
      let new_header := header_name ++ [':', ' '] ++ value ++ ['\r', '\n']
      replaceFirst old_header new_header all
    else setHeaderLoop lower name value all rest

/-- `JSRequest.SetHeader`, with Go `strings.ToLower` as the parameter
`lower`. -/
def SetHeaderWith (lower : Str → Str) (j : JSRequest) (name value : Str) : JSRequest :=
  { j with Headers := setHeaderLoop lower name value j.Headers (splitCRLF j.Headers) }

/-- `JSRequest.SetHeader` on ASCII names. -/
def SetHeader (j : JSRequest) (name value : Str) : JSRequest :=
  SetHeaderWith ToLower j name value

/-- The loop of `JSRequest.RemoveHeader` over the lines of the block `all`;
the result is the new `Headers` text; `lower` is Go `strings.ToLower`. -/
def removeHeaderLoop (lower : Str → Str) (name all : Str) : List Str → Str
  | [] => all
  | line :: rest =>
    let header_name := ReplaceAllString Group.name line
    let header_value := ReplaceAllString Group.value line
    if lower name = lower header_name then
      let removed_header := header_name ++ [':', ' '] ++ header_value ++ ['\r', '\n']
      replaceFirst removed_header [] all
    else removeHeaderLoop lower name all rest

/-- `JSRequest.RemoveHeader`, with Go `strings.ToLower` as the parameter
`lower`. -/
def RemoveHeaderWith (lower : Str → Str) (j : JSRequest) (name : Str) : JSRequest :=
  { j with Headers := removeHeaderLoop lower name j.Headers (splitCRLF j.Headers) }

/-- `JSRequest.RemoveHeader` on ASCII names. -/
def RemoveHeader (j : JSRequest) (name : Str) : JSRequest :=
  RemoveHeaderWith ToLower j name

/-! ## Form parsing -/

/-- Cuts a text at the first occurrence of a character. -/
def cutChar (sep : Char) : Str → Option (Str × Str)
  | [] => none
  | c :: s =>
    if c = sep then some ([], s)
    else (cutChar sep s).map (fun p => (c :: p.1, p.2))

/-- Go `strings.SplitN(s, sep, 2)` for a one-character separator: the text
itself when it does not hold the separator, else the text before the first
separator and the text after it. -/
def splitN2 (sep : Char) (s : Str) : List Str :=
  match cutChar sep s with
  | none => [s]
  | some (a, b) => [a, b]

/-- Value of a hexadecimal digit (Go `ishex` and `unhex`). -/
def unhex (c : Char) : Option Nat :=
  if '0' ≤ c ∧ c ≤ '9' then some (c.toNat - '0'.toNat)
  else if 'a' ≤ c ∧ c ≤ 'f' then some (c.toNat - 'a'.toNat + 10)
  else if 'A' ≤ c ∧ c ≤ 'F' then some (c.toNat - 'A'.toNat + 10)
  else none

/-- Go `url.QueryUnescape`: `%XY` becomes the byte with hexadecimal value
`XY`, `+` becomes a space, other bytes are kept; `none` is the error returned
when a `%` is not followed by two hexadecimal digits. -/
def QueryUnescape : Str → Option Str
  | [] => some []
  | c :: s =>
    if c = '%' then
      match s with
      | a :: b :: t =>
        match unhex a, unhex b with
        | some x, some y => (QueryUnescape t).map (fun r => Char.ofNat (16 * x + y) :: r)
        | _, _ => none
      | _ => none
    else if c = '+' then (QueryUnescape s).map (fun r => ' ' :: r)
    else (QueryUnescape s).map (fun r => c :: r)

/-- A Go `map[string]string`: the value stored under each key, if any. -/
abbrev Form := Str → Option Str

/-- Go `make(map[string]string)`. -/
def emptyForm : Form := fun _ => none

/-- Go `form[key] = val`. -/
def Form.set (form : Form) (key val : Str) : Form :=
  fun k => if k = key then some val else form k

/-- The loop of `JSRequest.ParseForm` over the `&`-separated parts. -/
def parseFormLoop : List Str → Form → Form
  | [], form => form
  | part :: parts, form =>
    match splitN2 '=' part with
    | [k, v] =>
      match QueryUnescape v with
      | some unescaped => parseFormLoop parts (form.set k unescaped)
      | none => parseFormLoop parts (form.set k v)
    | _ => parseFormLoop parts form

/-- `JSRequest.ParseForm`: the returned map and the object afterwards. -/
def ParseForm (j : JSRequest) : Form × JSRequest :=
  let j1 : JSRequest :=
    if j.Body = [] then
      let r := ReadBody j
      { r.2 with Body := r.1 }
    else j
  (parseFormLoop (splitChar '&' j1.Body) emptyForm, j1)

/-! ## Reconstruction -/

/-- Go `httpguts.IsTokenRune` (and `validHeaderFieldByte`): letters, digits
and the punctuation an HTTP token may hold. -/
def isTokenByte (c : Char) : Bool :=
  c.isAlphanum || decide (c.toNat ∈ [33, 35, 36, 37, 38, 39, 42, 43, 45, 46, 94, 95, 96, 124, 126])

/-- Go `validMethod` of `net/http`. -/
def validMethod (method : Str) : Bool :=
  decide (0 < method.length) && method.all isTokenByte

/-- The rewriting pass of Go `textproto.CanonicalMIMEHeaderKey`: upper case
for the first letter and for a letter after a dash, lower case elsewhere. -/
def canonicalLetters : Bool → Str → Str
  | _, [] => []
  | upper, c :: s =>
    let c1 := if upper then c.toUpper else c.toLower
    c1 :: canonicalLetters (decide (c1 = '-')) s

/-- Go `textproto.CanonicalMIMEHeaderKey`: a key holding a byte that is not a
token byte is returned unchanged. -/
def CanonicalMIMEHeaderKey (s : Str) : Str :=
  if s.all isTokenByte then canonicalLetters true s else s

/-- A Go `http.Header`: the value list stored under each key, if any. -/
abbrev Header := Str → Option (List Str)

/-- Go `Header.Set(key, value)`: the canonical form of the key is bound to
the one-element list holding `value`. -/
def Header.Set (h : Header) (key value : Str) : Header :=
  fun k => if k = CanonicalMIMEHeaderKey key then some [value] else h k

/-- Go `Header.Values(key)`: the values stored under the canonical form of
the key. -/
def Header.Values (h : Header) (key : Str) : List Str :=
  (h (CanonicalMIMEHeaderKey key)).getD []

/-- The fields of the outbound `http.Request` this file sets. -/
structure OutRequest where
  Method : Str
  URL : Str
  Header : Header
  Body : ReadCloser

/-- Go `http.NewRequest(method, url, body)`; `none` is the `nil` request it
returns together with an error.  An empty method stands for `GET`; the
method has to be a token and the address has to parse.  Go `url.Parse` is
the parameter `urlParses`. -/
def NewRequest (urlParses : Str → Bool) (method url : Str) (body : ReadCloser) :
    Option OutRequest :=
  let method := if method = [] then "GET".toList else method
  if ¬ validMethod method then none
  else if ¬ urlParses url then none
  else some { Method := method, URL := url, Header := fun _ => none, Body := body }

/-- Go `req.Header.Set(key, value)` through the pointer `req`; the outer
`none` is the run-time panic of dereferencing a `nil` request. -/
def setOnRequest (req : Option OutRequest) (key value : Str) : Option (Option OutRequest) :=
  match req with
  | none => none
  | some r => some (some { r with Header := r.Header.Set key value })

/-- The header replay loop of `JSRequest.ToRequest`: the request and
`hadType` after the lines; `none` is a run-time panic. -/
def replayHeaders : List Str → Option OutRequest × Bool → Option (Option OutRequest × Bool)
  | [], st => some st
  | line :: rest, (req, hadType) =>
    if line ≠ [] then
      let header_name := ReplaceAllString Group.name line
      let header_value := ReplaceAllString Group.value line
      match setOnRequest req header_name header_value with
      | none => none
      | some req1 =>
        replayHeaders rest
          (req1, if ToLower header_name = "content-type".toList then true else hadType)
    else replayHeaders rest (req, hadType)

/-- `JSRequest.ToRequest`: the outer `none` is a run-time panic, the inner
`none` a `nil` request. -/
def ToRequest (urlParses : Str → Bool) (j : JSRequest) : Option (Option OutRequest) :=
  let url := j.Scheme ++ "://".toList ++ j.Hostname ++ ":".toList ++ j.req.URL.Port ++ j.Path ++
    "?".toList ++ j.Query
  let req :=
    if j.Body = [] then NewRequest urlParses j.Method url j.req.Body
    else NewRequest urlParses j.Method url (NewBuffer j.Body)
  match replayHeaders (splitCRLF j.Headers) (req, false) with
  | none => none
  | some (req1, hadType) =>
    if ¬ hadType ∧ j.ContentType ≠ [] then
      setOnRequest req1 "Content-Type".toList j.ContentType
    else some req1

/-! ## Well-formed header blocks -/

/-- A header entry: its name and its value. -/
abbrev Entry := Str × Str

/-- The text of an entry inside the block: `Name: Value` and the line
terminator. -/
def Entry.render (e : Entry) : Str :=
  e.1 ++ [':', ' '] ++ e.2 ++ ['\r', '\n']

/-- The block holding the given entries, in order. -/
def renderBlock : List Entry → Str
  | [] => []
  | e :: es => e.render ++ renderBlock es

/-- Whether a text holds `": "`. -/
def hasColonSpace : Str → Bool
  | [] => false
  | [_] => false
  | c :: d :: s => (decide (c = ':') && decide (d = ' ')) || hasColonSpace (d :: s)

/-- A text without carriage return and without line feed. -/
def noCRLF (s : Str) : Prop := '\r' ∉ s ∧ '\n' ∉ s

instance (s : Str) : Decidable (noCRLF s) := by
  unfold noCRLF; infer_instance

/-- An entry of a well-formed block: the name holds no `": "`, and neither
the name nor the value holds a carriage return or a line feed. -/
def Entry.WellFormed (e : Entry) : Prop :=
  hasColonSpace e.1 = false ∧ noCRLF e.1 ∧ noCRLF e.2

instance (e : Entry) : Decidable e.WellFormed := by
  unfold Entry.WellFormed; infer_instance

/-- A name carried by an entry, ignoring letter case; `lower` is Go
`strings.ToLower`. -/
def Entry.carriesWith (lower : Str → Str) (name : Str) (e : Entry) : Bool :=
  decide (lower name = lower e.1)

/-- A name carried by an entry, ignoring letter case, on ASCII names. -/
def Entry.carries (name : Str) (e : Entry) : Bool :=
  Entry.carriesWith ToLower name e

/-- A request object whose header block is the given text; the other fields
are empty. -/
def withHeaders (h : Str) : JSRequest :=
  { Client := [], Method := [], Version := [], Scheme := [], Path := [], Query := [],
    Hostname := [], ContentType := [], Headers := h, Body := [],
    req := { RemoteAddr := [], Method := [], ProtoMajor := 1, ProtoMinor := 1,
             URL := { Scheme := [], Path := [], RawQuery := [], Port := [] },
             Host := [], Header := [], Body := { pending := [], broken := false } },
    refHash := [], bodyRead := false }

/-- The line of an entry: its text without the terminator. -/
def Entry.line (e : Entry) : Str := e.1 ++ [':', ' '] ++ e.2

/-- Whether the text of the first entry carrying `name` is the tail of no
entry before it (`seen` holds the entries already passed); `lower` is Go
`strings.ToLower`. -/
def firstCarrierClear (lower : Str → Str) (name : Str) (seen : List Entry) :
    List Entry → Bool
  | [] => true
  | e :: es =>
    if Entry.carriesWith lower name e then
      seen.all (fun x => !(e.render.isSuffixOf x.render))
    else firstCarrierClear lower name (e :: seen) es

/-- The value found under `name` in the entries `es`: the value of the first
entry carrying the name, else `d`; `lower` is Go `strings.ToLower`. -/
def firstValueOrWith (lower : Str → Str) (name d : Str) (es : List Entry) : Str :=
  match es.find? (Entry.carriesWith lower name) with
  | some e => e.2
  | none => d

/-- The value `GetHeader(name, d)` is specified to return on the block of the
entries `es`: the value of the first entry carrying the name, else `d`. -/
def firstValueOr (name d : Str) (es : List Entry) : Str :=
  match es.find? (Entry.carries name) with
  | some e => e.2
  | none => d

/-- The entries `SetHeader(name, value)` is specified to leave when an entry
carries the name: the first such entry gets the value and keeps its stored
name, every other entry stays as it is and where it is. -/
def setFirstValue (name value : Str) : List Entry → List Entry
  | [] => []
  | e :: es => if e.carries name then (e.1, value) :: es else e :: setFirstValue name value es

/-! ## The form mapping in the words of the specification -/

/-- The key and the raw value a segment contributes: the text before its
first `=` and the text after it; nothing for a segment without `=`. -/
def segmentPair (seg : Str) : Option (Str × Str) :=
  if '=' ∈ seg then
    some (seg.takeWhile (fun c => c != '='), (seg.dropWhile (fun c => c != '=')).tail)
  else none

/-- The hexadecimal digits: the digit at place `i` has the value `i` up to
place 15, and the six capital letters that follow have the values 10 to 15. -/
def hexDigits : Str := "0123456789abcdefABCDEF".toList

/-- The value of a hexadecimal digit, read off its place in `hexDigits`. -/
def hexDigit (c : Char) : Option Nat :=
  let i := hexDigits.indexOf c
  if i < 16 then some i else if i < 22 then some (i - 6) else none

/-- What follows one `%` sign, decoded: two hexadecimal digits `XY` stand for
the byte of value `XY`, the rest of the piece for itself; a piece that does
not start with two hexadecimal digits cannot be decoded. -/
def decodeEscape : Str → Option Str
  | x :: y :: rest =>
    match hexDigit x, hexDigit y with
    | some a, some b => some (Char.ofNat (16 * a + b) :: rest)
    | _, _ => none
  | _ => none

/-- The pieces that follow the `%` signs of a text, decoded and joined. -/
def decodeEscapes : List Str → Option Str
  | [] => some []
  | piece :: pieces =>
    match decodeEscape piece, decodeEscapes pieces with
    | some d, some r => some (d ++ r)
    | _, _ => none

/-- Percent-decoding, in the words of the claim: the text is cut at its `%`
signs; what stands before the first `%` is kept, and every `%` has to be
followed by two hexadecimal digits, which are replaced by the byte they
denote.  Nothing else is rewritten; `none` when some `%` is not followed by
two hexadecimal digits. -/
def percentDecode (s : Str) : Option Str :=
  match splitChar '%' s with
  | [] => none
  | first :: pieces => (decodeEscapes pieces).map (fun r => first ++ r)

/-- Every `+` of a text read as a space. -/
def plusToSpace (s : Str) : Str :=
  s.map (fun c => if c = '+' then ' ' else c)

/-- The value the claim binds to a key: the percent-decoding of the raw
value, or the raw value when decoding fails. -/
def percentDecodeOrRaw (v : Str) : Str := (percentDecode v).getD v

/-- The value of the amended claim: the percent-decoding of the raw value
with every `+` read as a space, or the raw value, unchanged, when decoding
fails. -/
def formDecodeOrRaw (v : Str) : Str := (percentDecode (plusToSpace v)).getD v

/-- The mapping specified for a body under a way of decoding values: a key
is bound by the last of the `&`-separated segments that contributes it, to
the decoded value of that segment. -/
def specFormWith (decode : Str → Str) (body : Str) : Form := fun k =>
  (((splitChar '&' body).filterMap segmentPair).reverse.find? (fun p => p.1 = k)).map
    (fun p => decode p.2)

/-- The mapping of the claim as stated: values are percent-decoded. -/
def claimedForm (body : Str) : Form := specFormWith percentDecodeOrRaw body

/-- The mapping of the amended claim: values are percent-decoded with `+`
read as a space. -/
def amendedForm (body : Str) : Form := specFormWith formDecodeOrRaw body

/-! ## Sample inputs -/

/-- A request object as the proxy builds it for `POST /login?x=1`, with its
fingerprint checkpointed. -/
def sampleRequest : JSRequest :=
  UpdateHash { withHeaders "Host: a.b\r\n".toList with
    Method := "POST".toList, Version := "1.1".toList, Scheme := "http".toList,
    Path := "/login".toList, Query := "x=1".toList, Hostname := "a.b".toList,
    ContentType := "text/plain".toList,
    req := { (withHeaders []).req with
      URL := { Scheme := "http".toList, Path := "/login".toList, RawQuery := "x=1".toList,
               Port := "8080".toList } } }

/-- An inbound request `GET http://a.b:8080/login?x=1` whose header map holds
the two values `1` and `2` under `X-A`. -/
def sampleInbound : Request :=
  { RemoteAddr := "10.0.0.7:51234".toList, Method := "GET".toList, ProtoMajor := 1,
    ProtoMinor := 1,
    URL := { Scheme := "http".toList, Path := "/login".toList, RawQuery := "x=1".toList,
             Port := "8080".toList },
    Host := "a.b".toList, Header := [("X-A".toList, ["1".toList, "2".toList])],
    Body := { pending := [], broken := false } }

/-- A stand-in for Go `url.Parse` that accepts the address rebuilt for the
sample request, `http://a.b:8080/login?x=1`, and no other. -/
def sampleUrlParses (u : Str) : Bool :=
  decide (u = "http://a.b:8080/login?x=1".toList)

/-- The values an outcome of `ToRequest` carries for a header name; `none`
when no request was built. -/
def outValues (res : Option (Option OutRequest)) (key : Str) : Option (List Str) :=
  match res with
  | some (some r) => some (r.Header.Values key)
  | _ => none

/-- The sample request over a stream that delivers `abc`. -/
def abcRequest : JSRequest :=
  { sampleRequest with req := { sampleRequest.req with
      Body := { pending := "abc".toList, broken := false } } }

/-- The object after `ReadBody` on `abcRequest` followed by the assignment
`Body = "xyz"`. -/
def abcEdited : JSRequest :=
  { (ReadBody abcRequest).2 with Body := "xyz".toList }

/-- An object with `Path = "a."` and `Query = "b"`, fingerprint checkpointed. -/
def collisionBefore : JSRequest :=
  UpdateHash { sampleRequest with Path := "a.".toList, Query := "b".toList }

/-- The same object after the assignments `Path = "a"` and `Query = ".b"`. -/
def collisionAfter : JSRequest :=
  { collisionBefore with Path := "a".toList, Query := ".b".toList }

/-- The entries `Host: a.b`, `Foo: 1`, `foo: 2`. -/
def sampleEntries : List Entry :=
  [("Host".toList, "a.b".toList), ("Foo".toList, "1".toList), ("foo".toList, "2".toList)]

/-- The entries `X-Foo: 1`, `Foo: 1`: the text of the second is a tail of the
text of the first. -/
def overlapEntries : List Entry :=
  [("X-Foo".toList, "1".toList), ("Foo".toList, "1".toList)]

/-- The entries `Foo: 1`, `Foo: 2`. -/
def twinEntries : List Entry :=
  [("Foo".toList, "1".toList), ("Foo".toList, "2".toList)]

/-! ## Operations on the object as a state machine -/

/-- What a script or the proxy can do to a request object: assign one of the
exported fields, call one of the methods, or (another holder of the
underlying request) put a different body stream in place. -/
inductive Op where
  | assignClient (v : Str)
  | assignMethod (v : Str)
  | assignVersion (v : Str)
  | assignScheme (v : Str)
  | assignPath (v : Str)
  | assignQuery (v : Str)
  | assignHostname (v : Str)
  | assignContentType (v : Str)
  | assignHeaders (v : Str)
  | assignBody (v : Str)
  | getHeader (name deflt : Str)
  | setHeader (name value : Str)
  | removeHeader (name : Str)
  | readBody
  | parseForm
  | updateHash
  | wasModified
  | toRequest
  | streamReplaced (r : ReadCloser)
  deriving DecidableEq, Repr

/-- The object after one operation.  `GetHeader`, `WasModified` and
`ToRequest` hold no assignment to the receiver or to the underlying request,
so they leave the state as it is. -/
def step (j : JSRequest) : Op → JSRequest
  | Op.assignClient v => { j with Client := v }
  | Op.assignMethod v => { j with Method := v }
  | Op.assignVersion v => { j with Version := v }
  | Op.assignScheme v => { j with Scheme := v }
  | Op.assignPath v => { j with Path := v }
  | Op.assignQuery v => { j with Query := v }
  | Op.assignHostname v => { j with Hostname := v }
  | Op.assignContentType v => { j with ContentType := v }
  | Op.assignHeaders v => { j with Headers := v }
  | Op.assignBody v => { j with Body := v }
  | Op.getHeader _ _ => j
  | Op.setHeader name value => SetHeader j name value
  | Op.removeHeader name => RemoveHeader j name
  | Op.readBody => (ReadBody j).2
  | Op.parseForm => (ParseForm j).2
  | Op.updateHash => UpdateHash j
  | Op.wasModified => j
  | Op.toRequest => j
  | Op.streamReplaced r => { j with req := { j.req with Body := r } }

/-- The operations of the object itself (field assignments and method
calls), as opposed to another holder replacing the stream. -/
def Op.isOwn : Op → Bool
  | Op.streamReplaced _ => false
  | _ => true

/-- The object after a sequence of operations, first to last. -/
def run (j : JSRequest) (ops : List Op) : JSRequest :=
  ops.foldl step j

/-! ## Notions used to state the reconstruction and construction claims -/

/-- The address `ToRequest` assembles. -/
def requestURL (j : JSRequest) : Str :=
  j.Scheme ++ "://".toList ++ j.Hostname ++ ":".toList ++ j.req.URL.Port ++ j.Path ++
    "?".toList ++ j.Query

/-- The body `ToRequest` hands to `http.NewRequest`. -/
def requestBody (j : JSRequest) : ReadCloser :=
  if j.Body = [] then j.req.Body else NewBuffer j.Body

/-- A line of the block whose name equals `content-type` ignoring case. -/
def isTypeLine (line : Str) : Bool :=
  decide (ToLower (ReplaceAllString Group.name line) = "content-type".toList)

/-- The value of the last line of the block whose name equals `content-type`
ignoring case. -/
def lastTypeValue (lines : List Str) : Option Str :=
  (lines.filter isTypeLine).getLast?.map (ReplaceAllString Group.value)

/-- The (name, value) pairs of a header map, in the order the loops of
`NewJSRequest` visit them. -/
def headerPairs : List (Str × List Str) → List Entry
  | [] => []
  | (name, values) :: rest => values.map (fun v => (name, v)) ++ headerPairs rest

/-! # Verification -/

/-! ## Change tracking -/

/-- C1: on an object whose body was not read and whose reference fingerprint
is its current fingerprint, assigning a different value to one of Method,
Path, Query, Scheme, Hostname or ContentType (the other fields kept) makes
`WasModified` true, whatever the old and new values hold. -/
theorem single_field_edit_detected (j : JSRequest) (hb : j.bodyRead = false)
    (hr : j.refHash = NewHash j) (v : Str) :
    (v ≠ j.Method → WasModified { j with Method := v } = true) ∧
    (v ≠ j.Path → WasModified { j with Path := v } = true) ∧
    (v ≠ j.Query → WasModified { j with Query := v } = true) ∧
    (v ≠ j.Scheme → WasModified { j with Scheme := v } = true) ∧
    (v ≠ j.Hostname → WasModified { j with Hostname := v } = true) ∧
    (v ≠ j.ContentType → WasModified { j with ContentType := v } = true) := by
  refine ⟨?_, ?_, ?_, ?_, ?_, ?_⟩ <;> intro hv <;>
    simp [WasModified, NewHash, hb, hr, List.append_assoc, hv]

/-- Witness of C1: changing the path of the sample request to `a.b.c`. -/
theorem single_field_edit_detected_witness :
    WasModified { sampleRequest with Path := "a.b.c".toList } = true :=
  (single_field_edit_detected sampleRequest rfl rfl "a.b.c".toList).2.1 (by decide)

/-- C2: a freshly constructed object has an empty body, an unread body flag
and reports unmodified; and any object whose body was not read reports
unmodified right after `UpdateHash`. -/
theorem fresh_or_checkpointed_unmodified :
    (∀ req : Request, (NewJSRequest req).Body = [] ∧ (NewJSRequest req).bodyRead = false ∧
      WasModified (NewJSRequest req) = false) ∧
    (∀ j : JSRequest, j.bodyRead = false → WasModified (UpdateHash j) = false) := by
  constructor
  · intro req
    simp [NewJSRequest, UpdateHash, WasModified, NewHash]
  · intro j hb
    simp [UpdateHash, WasModified, NewHash, hb]

/-- Witness of C2: the sample request after an edit and a checkpoint. -/
theorem fresh_or_checkpointed_unmodified_witness :
    WasModified (UpdateHash { sampleRequest with Path := "a.b.c".toList }) = false :=
  fresh_or_checkpointed_unmodified.2 { sampleRequest with Path := "a.b.c".toList } rfl

/-! ## Body materialisation -/

/-- C3: after a `ReadBody` whose stream read succeeds `WasModified` is true;
in particular when the stream is empty on an object with empty body and a
checkpointed fingerprint, the body stays empty, the current fingerprint still
equals the reference fingerprint, and `WasModified` is true all the same. -/
theorem read_body_marks_modified (j : JSRequest) (hok : j.req.Body.broken = false) :
    WasModified (ReadBody j).2 = true ∧
    (j.req.Body.pending = [] → j.Body = [] → j.refHash = NewHash j →
      (ReadBody j).2.Body = [] ∧ NewHash (ReadBody j).2 = (ReadBody j).2.refHash ∧
      WasModified (ReadBody j).2 = true) := by
  constructor
  · simp [ReadBody, ReadAll, hok, WasModified]
  · intro hp hbody hr
    simp [ReadBody, ReadAll, hok, WasModified, hp, NewHash, hr, hbody]

/-- Witness of C3: reading the empty stream of the sample request. -/
theorem read_body_marks_modified_witness :
    WasModified (ReadBody sampleRequest).2 = true ∧
    (ReadBody sampleRequest).2.Body = [] ∧
    NewHash (ReadBody sampleRequest).2 = (ReadBody sampleRequest).2.refHash :=
  ⟨(read_body_marks_modified sampleRequest rfl).1,
   ((read_body_marks_modified sampleRequest rfl).2 rfl rfl rfl).1,
   ((read_body_marks_modified sampleRequest rfl).2 rfl rfl rfl).2.1⟩

/-- C4: when the underlying stream delivers the bytes `b` without error,
`ReadBody` returns `b`, stores `b` in `Body`, and leaves the underlying
request with a stream that drains to exactly `b` without error: the stream a
later reader finds is the one that was there before the call. -/
theorem read_body_rebuffers (j : JSRequest) (b : Str)
    (hs : j.req.Body = { pending := b, broken := false }) :
    (ReadBody j).1 = b ∧ (ReadBody j).2.Body = b ∧
    (ReadAll (ReadBody j).2.req.Body).1 = b ∧
    (ReadAll (ReadBody j).2.req.Body).2.1 = false ∧
    (ReadBody j).2.req = j.req := by
  obtain ⟨c, m, v, sc, p, q, h, ct, hd, bd, rq, rh, br⟩ := j
  obtain ⟨ra, me, pma, pmi, u, ho, hdr, body⟩ := rq
  simp only at hs
  subst hs
  simp [ReadBody, ReadAll, NewBuffer]

/-- Witness of C4: a request whose stream holds `a=1`. -/
theorem read_body_rebuffers_witness :
    (ReadBody { sampleRequest with req := { sampleRequest.req with
      Body := { pending := "a=1".toList, broken := false } } }).1 = "a=1".toList :=
  (read_body_rebuffers { sampleRequest with req := { sampleRequest.req with
      Body := { pending := "a=1".toList, broken := false } } } "a=1".toList rfl).1

/-! ## Lines of a well-formed block -/

theorem splitChar_of_not_mem (sep : Char) (s : Str) (h : sep ∉ s) :
    splitChar sep s = [s] := by
  induction s with
  | nil => rfl
  | cons c s ih =>
    have hc : c ≠ sep := fun hc => h (by simp [hc])
    have hs : sep ∉ s := fun hs => h (by simp [hs])
    simp [splitChar, hc, ih hs, consHead]

theorem ReplaceAllString_of_not_mem (g : Group) (s : Str) (h : '\n' ∉ s) :
    ReplaceAllString g s = replaceSegment g s := by
  simp [ReplaceAllString, splitChar_of_not_mem _ _ h, joinChar]

theorem ReplaceAllString_nil (g : Group) : ReplaceAllString g [] = [] := by
  cases g <;> rfl

theorem hasColonSpace_tail (c : Char) (n : Str) (h : hasColonSpace (c :: n) = false) :
    hasColonSpace n = false := by
  cases n with
  | nil => rfl
  | cons d n =>
    simp only [hasColonSpace, Bool.or_eq_false_iff] at h
    exact h.2

theorem cutColonSpace_append (n v : Str) (h : hasColonSpace n = false) :
    cutColonSpace (n ++ ':' :: ' ' :: v) = some (n, v) := by
  induction n with
  | nil => simp [cutColonSpace]
  | cons c n ih =>
    have ih1 := ih (hasColonSpace_tail c n h)
    cases n with
    | nil =>
      simp [cutColonSpace]
    | cons d n =>
      have hcd : ¬ (c = ':' ∧ d = ' ') := by
        intro hcd
        simp [hasColonSpace, hcd.1, hcd.2] at h
      simp only [List.cons_append] at ih1 ⊢
      simp [cutColonSpace, hcd, ih1]

theorem ToLower_eq_nil (s : Str) : ToLower [] = ToLower s ↔ s = [] := by
  cases s <;> simp [ToLower]

theorem Entry.line_not_mem (e : Entry) (h : e.WellFormed) : '\n' ∉ e.line := by
  obtain ⟨_, ⟨_, h1⟩, ⟨_, h2⟩⟩ := h
  simp [Entry.line, h1, h2]

theorem ReplaceAllString_line_name (e : Entry) (h : e.WellFormed) :
    ReplaceAllString Group.name e.line = e.1 := by
  rw [ReplaceAllString_of_not_mem _ _ (e.line_not_mem h)]
  have := cutColonSpace_append e.1 e.2 h.1
  simp only [Entry.line, replaceSegment, List.append_assoc, List.cons_append, List.nil_append, this]

theorem ReplaceAllString_line_value (e : Entry) (h : e.WellFormed) :
    ReplaceAllString Group.value e.line = e.2 := by
  rw [ReplaceAllString_of_not_mem _ _ (e.line_not_mem h)]
  have := cutColonSpace_append e.1 e.2 h.1
  simp only [Entry.line, replaceSegment, List.append_assoc, List.cons_append, List.nil_append, this]

theorem splitCRLF_append (a rest : Str) (h : '\r' ∉ a) :
    splitCRLF (a ++ '\r' :: '\n' :: rest) = a :: splitCRLF rest := by
  induction a with
  | nil => simp [splitCRLF]
  | cons c a ih =>
    have hc : c ≠ '\r' := fun hc => h (by simp [hc])
    have ha : '\r' ∉ a := fun ha => h (by simp [ha])
    have ih1 := ih ha
    cases a with
    | nil =>
      simp only [List.nil_append] at ih1
      simp [splitCRLF, hc, ih1, consHead]
    | cons d a =>
      simp only [List.cons_append] at ih1 ⊢
      simp [splitCRLF, hc, ih1, consHead]

theorem Entry.line_no_cr (e : Entry) (h : e.WellFormed) : '\r' ∉ e.line := by
  obtain ⟨_, ⟨h1, _⟩, ⟨h2, _⟩⟩ := h
  simp [Entry.line, h1, h2]

theorem Entry.render_eq (e : Entry) : e.render = e.line ++ ['\r', '\n'] := rfl

theorem splitCRLF_renderBlock (es : List Entry) (h : ∀ e ∈ es, e.WellFormed) :
    splitCRLF (renderBlock es) = es.map Entry.line ++ [[]] := by
  induction es with
  | nil => rfl
  | cons e es ih =>
    have he := h e (by simp)
    have hes : ∀ x ∈ es, x.WellFormed := fun x hx => h x (by simp [hx])
    simp only [renderBlock, Entry.render_eq, List.append_assoc, List.cons_append, List.nil_append,
      List.map_cons]
    rw [splitCRLF_append _ _ (e.line_no_cr he), ih hes]

/-- What `GetHeader` finds in a well-formed block: the value of the first
entry carrying the name; failing that the blank piece after the last
terminator answers for a name that equals the empty name after
`strings.ToLower`. -/
theorem getHeaderLoop_lines (lower : Str → Str) (name deflt : Str) (es : List Entry)
    (h : ∀ e ∈ es, e.WellFormed) :
    getHeaderLoop lower name deflt (es.map Entry.line ++ [[]]) =
      match es.find? (Entry.carriesWith lower name) with
      | some e => e.2
      | none => if lower name = lower [] then [] else deflt := by
  induction es with
  | nil =>
    by_cases hn : lower name = lower []
    · simp [getHeaderLoop, ReplaceAllString_nil, hn]
    · simp [getHeaderLoop, ReplaceAllString_nil, hn]
  | cons e es ih =>
    have he := h e (by simp)
    have hes : ∀ x ∈ es, x.WellFormed := fun x hx => h x (by simp [hx])
    simp only [List.map_cons, List.cons_append, getHeaderLoop, ReplaceAllString_line_name e he,
      ReplaceAllString_line_value e he, List.find?_cons]
    by_cases hc : lower name = lower e.1
    · simp [Entry.carriesWith, hc]
    · simp [Entry.carriesWith, hc, ih hes]

/-! ## Replacing the text of an entry inside a block -/

theorem replaceFirst_self_append (old new rest : Str) (h : old ≠ []) :
    replaceFirst old new (old ++ rest) = new ++ rest := by
  cases old with
  | nil => exact absurd rfl h
  | cons c o =>
    have hp : (c :: o).isPrefixOf (c :: (o ++ rest)) = true := by
      rw [List.isPrefixOf_iff_prefix]
      exact ⟨rest, rfl⟩
    simp only [List.cons_append, replaceFirst, hp, if_true]
    simp

theorem replaceFirst_skip (old new p rest : Str)
    (h : ∀ u t, p = u ++ t → t ≠ [] → ¬ old <+: t ++ rest) :
    replaceFirst old new (p ++ rest) = p ++ replaceFirst old new rest := by
  induction p with
  | nil => rfl
  | cons c p ih =>
    have hp : (old.isPrefixOf (c :: (p ++ rest))) = false := by
      rw [Bool.eq_false_iff]
      intro hc
      rw [List.isPrefixOf_iff_prefix] at hc
      exact h [] (c :: p) rfl (by simp) hc
    have ih1 := ih (fun u t hu ht => h (c :: u) t (by simp [hu]) ht)
    show replaceFirst old new (c :: (p ++ rest)) = c :: (p ++ replaceFirst old new rest)
    rw [replaceFirst, hp, ih1]
    simp

theorem cr_cancel (a b x y : Str) (ha : '\r' ∉ a) (hb : '\r' ∉ b)
    (h : a ++ '\r' :: x = b ++ '\r' :: y) : a = b ∧ x = y := by
  induction a generalizing b with
  | nil =>
    cases b with
    | nil => simpa using h
    | cons d b =>
      simp only [List.nil_append, List.cons_append, List.cons.injEq] at h
      exact absurd h.1.symm (fun hd => hb (by simp [hd]))
  | cons c a ih =>
    cases b with
    | nil =>
      simp only [List.nil_append, List.cons_append, List.cons.injEq] at h
      exact absurd h.1 (fun hc => ha (by simp [hc]))
    | cons d b =>
      simp only [List.cons_append, List.cons.injEq] at h
      have := ih b (fun hx => ha (by simp [hx])) (fun hx => hb (by simp [hx])) h.2
      exact ⟨by rw [h.1, this.1], this.2⟩

/-- Inside the text of a well-formed entry `x`, followed by anything, the
text of a well-formed entry can only start where it is a tail of `x`. -/
theorem no_occurrence_inside (old x : Entry) (hold : old.WellFormed) (hx : x.WellFormed)
    (hsuf : ¬ old.render <:+ x.render) (rest u t : Str) (hu : x.render = u ++ t)
    (ht : t ≠ []) : ¬ old.render <+: t ++ rest := by
  rintro ⟨z, hz⟩
  have ho := old.line_no_cr hold
  rw [Entry.render_eq] at hu
  rcases List.append_eq_append_iff.1 hu with ⟨w, hw1, hw2⟩ | ⟨w, hw1, hw2⟩
  · -- the cut falls inside the terminator
    cases w with
    | nil =>
      simp only [List.nil_append] at hw2
      subst hw2
      rw [Entry.render_eq] at hz
      have := cr_cancel old.line [] ('\n' :: z) ('\n' :: rest) ho (by simp) (by simpa using hz)
      apply hsuf
      rw [Entry.render_eq, Entry.render_eq, this.1]
      exact ⟨x.line, by simp⟩
    | cons c w =>
      simp only [List.cons_append, List.cons.injEq] at hw2
      obtain ⟨-, hw2⟩ := hw2
      cases w with
      | nil =>
        simp only [List.nil_append] at hw2
        subst hw2
        rw [Entry.render_eq] at hz
        cases hl : old.line with
        | nil => rw [hl] at hz; simp at hz
        | cons d l =>
          rw [hl] at hz ho
          simp only [List.cons_append, List.cons.injEq] at hz
          have hd : d = '\n' := hz.1
          have := (old.line_not_mem hold)
          rw [hl] at this
          exact this (by simp [hd])
      | cons d w =>
        simp only [List.cons_append, List.cons.injEq] at hw2
        have := hw2.2
        simp at this
        exact ht this.2
  · -- the cut falls inside the line
    subst hw2
    have hw : '\r' ∉ w := by
      have := x.line_no_cr hx
      rw [hw1] at this
      exact fun hc => this (by simp [hc])
    rw [Entry.render_eq] at hz
    have := cr_cancel old.line w ('\n' :: z) ('\n' :: rest) ho hw (by simpa using hz)
    apply hsuf
    rw [Entry.render_eq, Entry.render_eq, this.1, hw1]
    exact ⟨u, by simp⟩

theorem Entry.render_ne_nil (e : Entry) : e.render ≠ [] := by
  simp [Entry.render]

theorem renderBlock_append (xs ys : List Entry) :
    renderBlock (xs ++ ys) = renderBlock xs ++ renderBlock ys := by
  induction xs with
  | nil => rfl
  | cons x xs ih => simp [renderBlock, ih]

/-- Replacing the text of an entry reaches that entry when its text is not
the tail of an earlier entry. -/
theorem replaceFirst_renderBlock (pre post : List Entry) (e : Entry) (new : Str)
    (hpre : ∀ x ∈ pre, x.WellFormed) (he : e.WellFormed)
    (hsuf : ∀ x ∈ pre, ¬ e.render <:+ x.render) :
    replaceFirst e.render new (renderBlock (pre ++ e :: post)) =
      renderBlock pre ++ new ++ renderBlock post := by
  induction pre with
  | nil =>
    simp only [List.nil_append, renderBlock]
    exact replaceFirst_self_append _ _ _ e.render_ne_nil
  | cons x pre ih =>
    have hx := hpre x (by simp)
    have ih1 := ih (fun y hy => hpre y (by simp [hy])) (fun y hy => hsuf y (by simp [hy]))
    show replaceFirst e.render new (x.render ++ renderBlock (pre ++ e :: post)) =
      x.render ++ renderBlock pre ++ new ++ renderBlock post
    rw [replaceFirst_skip _ _ _ _
      (no_occurrence_inside e x he hx (hsuf x (by simp)) _), ih1]
    simp

theorem firstCarrierClear_split (lower : Str → Str) (name : Str) (es : List Entry) :
    ∀ (seen pre post : List Entry) (e : Entry), firstCarrierClear lower name seen es = true →
      es = pre ++ e :: post → (∀ x ∈ pre, Entry.carriesWith lower name x = false) →
      Entry.carriesWith lower name e = true →
      ∀ x, x ∈ seen ∨ x ∈ pre → ¬ e.render <:+ x.render := by
  induction es with
  | nil => intro seen pre post e _ h; simp at h
  | cons a es ih =>
    intro seen pre post e hclear hsplit hpre he x hx
    cases pre with
    | nil =>
      simp only [List.nil_append, List.cons.injEq] at hsplit
      obtain ⟨rfl, -⟩ := hsplit
      simp only [firstCarrierClear, he, if_true, List.all_eq_true, Bool.not_eq_true',
        ← Bool.not_eq_true, List.isSuffixOf_iff_suffix] at hclear
      rcases hx with hx | hx
      · exact hclear x hx
      · simp at hx
    | cons b pre =>
      simp only [List.cons_append, List.cons.injEq] at hsplit
      obtain ⟨rfl, hsplit⟩ := hsplit
      have ha : Entry.carriesWith lower name a = false := hpre a (by simp)
      simp only [firstCarrierClear, ha] at hclear
      refine ih (a :: seen) pre post e hclear hsplit (fun y hy => hpre y (by simp [hy])) he x ?_
      rcases hx with hx | hx
      · exact Or.inl (by simp [hx])
      · rcases List.mem_cons.1 hx with hx | hx
        · exact Or.inl (by simp [hx])
        · exact Or.inr hx

theorem setHeaderLoop_lines (lower : Str → Str) (name value all : Str) (es : List Entry)
    (h : ∀ e ∈ es, e.WellFormed) :
    setHeaderLoop lower name value all (es.map Entry.line ++ [[]]) =
      match es.find? (Entry.carriesWith lower name) with
      | some e => replaceFirst e.render (Entry.render (e.1, value)) all
      | none =>
        if lower name = lower [] then
          replaceFirst [':', ' ', '\r', '\n'] (':' :: ' ' :: value ++ ['\r', '\n']) all
        else all ++ Entry.render (name, value) := by
  induction es with
  | nil =>
    by_cases hn : lower name = lower []
    · simp [setHeaderLoop, ReplaceAllString_nil, hn]
    · simp [setHeaderLoop, ReplaceAllString_nil, hn, Entry.render]
  | cons e es ih =>
    have he := h e (by simp)
    have hes : ∀ x ∈ es, x.WellFormed := fun x hx => h x (by simp [hx])
    simp only [List.map_cons, List.cons_append, setHeaderLoop, ReplaceAllString_line_name e he,
      ReplaceAllString_line_value e he, List.find?_cons]
    by_cases hc : lower name = lower e.1
    · simp [Entry.carriesWith, hc, Entry.render]
    · simp [Entry.carriesWith, hc, ih hes]

theorem removeHeaderLoop_lines (lower : Str → Str) (name all : Str) (es : List Entry)
    (h : ∀ e ∈ es, e.WellFormed) :
    removeHeaderLoop lower name all (es.map Entry.line ++ [[]]) =
      match es.find? (Entry.carriesWith lower name) with
      | some e => replaceFirst e.render [] all
      | none =>
        if lower name = lower [] then replaceFirst [':', ' ', '\r', '\n'] [] all else all := by
  induction es with
  | nil =>
    by_cases hn : lower name = lower []
    · simp [removeHeaderLoop, ReplaceAllString_nil, hn]
    · simp [removeHeaderLoop, ReplaceAllString_nil, hn]
  | cons e es ih =>
    have he := h e (by simp)
    have hes : ∀ x ∈ es, x.WellFormed := fun x hx => h x (by simp [hx])
    simp only [List.map_cons, List.cons_append, removeHeaderLoop, ReplaceAllString_line_name e he,
      ReplaceAllString_line_value e he, List.find?_cons]
    by_cases hc : lower name = lower e.1
    · simp [Entry.carriesWith, hc, Entry.render]
    · simp [Entry.carriesWith, hc, ih hes]

/-- `GetHeader` on a well-formed block, for every case folding. -/
theorem GetHeaderWith_renderBlock (lower : Str → Str) (j : JSRequest) (es : List Entry)
    (hj : j.Headers = renderBlock es) (h : ∀ e ∈ es, e.WellFormed) (name deflt : Str) :
    GetHeaderWith lower j name deflt =
      match es.find? (Entry.carriesWith lower name) with
      | some e => e.2
      | none => if lower name = lower [] then [] else deflt := by
  rw [GetHeaderWith, hj, splitCRLF_renderBlock es h, getHeaderLoop_lines lower name deflt es h]

/-- `GetHeader` on a well-formed block. -/
theorem GetHeader_renderBlock (j : JSRequest) (es : List Entry) (hj : j.Headers = renderBlock es)
    (h : ∀ e ∈ es, e.WellFormed) (name deflt : Str) :
    GetHeader j name deflt =
      match es.find? (Entry.carries name) with
      | some e => e.2
      | none => if name = [] then [] else deflt := by
  rw [show GetHeader j name deflt = GetHeaderWith ToLower j name deflt from rfl,
    GetHeaderWith_renderBlock ToLower j es hj h name deflt,
    show Entry.carriesWith ToLower name = Entry.carries name from rfl]
  by_cases hn : name = []
  · subst hn
    simp
  · have hl : ¬ ToLower name = ToLower [] := fun hc => hn ((ToLower_eq_nil name).1 hc.symm)
    simp [hn, hl]

/-- `SetHeader` on a well-formed block whose first carrier of the name is
the entry `e`, with a text that is the tail of no earlier entry: the value of
`e` is replaced and nothing else changes. -/
theorem SetHeader_renderBlock_found (lower : Str → Str) (j : JSRequest)
    (pre post : List Entry) (e : Entry)
    (name value : Str) (hj : j.Headers = renderBlock (pre ++ e :: post))
    (h : ∀ x ∈ pre ++ e :: post, x.WellFormed)
    (hpre : ∀ x ∈ pre, Entry.carriesWith lower name x = false)
    (he : Entry.carriesWith lower name e = true)
    (hsuf : ∀ x ∈ pre, ¬ e.render <:+ x.render) :
    (SetHeaderWith lower j name value).Headers = renderBlock (pre ++ (e.1, value) :: post) := by
  have hfind : (pre ++ e :: post).find? (Entry.carriesWith lower name) = some e := by
    rw [List.find?_eq_some]
    exact ⟨he, pre, post, rfl, fun a ha => by simp [hpre a ha]⟩
  show setHeaderLoop lower name value j.Headers (splitCRLF j.Headers) = _
  rw [hj, splitCRLF_renderBlock _ h, setHeaderLoop_lines _ _ _ _ _ h, hfind]
  show replaceFirst e.render _ _ = _
  rw [replaceFirst_renderBlock pre post e _ (fun x hx => h x (by simp [hx])) (h e (by simp)) hsuf,
    renderBlock_append]
  simp [renderBlock]

/-- `RemoveHeader` in the same situation: the entry `e` is deleted and
nothing else changes. -/
theorem RemoveHeader_renderBlock_found (lower : Str → Str) (j : JSRequest)
    (pre post : List Entry) (e : Entry)
    (name : Str) (hj : j.Headers = renderBlock (pre ++ e :: post))
    (h : ∀ x ∈ pre ++ e :: post, x.WellFormed)
    (hpre : ∀ x ∈ pre, Entry.carriesWith lower name x = false)
    (he : Entry.carriesWith lower name e = true)
    (hsuf : ∀ x ∈ pre, ¬ e.render <:+ x.render) :
    (RemoveHeaderWith lower j name).Headers = renderBlock (pre ++ post) := by
  have hfind : (pre ++ e :: post).find? (Entry.carriesWith lower name) = some e := by
    rw [List.find?_eq_some]
    exact ⟨he, pre, post, rfl, fun a ha => by simp [hpre a ha]⟩
  show removeHeaderLoop lower name j.Headers (splitCRLF j.Headers) = _
  rw [hj, splitCRLF_renderBlock _ h, removeHeaderLoop_lines _ _ _ _ h, hfind]
  show replaceFirst e.render _ _ = _
  rw [replaceFirst_renderBlock pre post e _ (fun x hx => h x (by simp [hx])) (h e (by simp)) hsuf,
    renderBlock_append]
  simp

theorem carries_congr (lower : Str → Str) (name name1 : Str) (h : lower name1 = lower name) :
    Entry.carriesWith lower name1 = Entry.carriesWith lower name := by
  funext e
  simp [Entry.carriesWith, h]

/-- C5 (amended): with Go `strings.ToLower` as `lower`, on a well-formed
block, for a value without CR/LF and a name that either is carried by an
entry of the block or differs from the empty name (also after `lower`), holds
no `": "` and no CR/LF, and provided the text of the first entry carrying the
name is the tail of no earlier entry: after `SetHeader(name, value)`,
`GetHeader(name1, d)` returns `value` for every `name1` equal to `name` up to
letter case. -/
theorem set_then_get_header (lower : Str → Str) (j : JSRequest) (es : List Entry)
    (hj : j.Headers = renderBlock es) (hwf : ∀ e ∈ es, e.WellFormed)
    (name name1 value d : Str) (hcase : lower name1 = lower name) (hv : noCRLF value)
    (hname : es.any (Entry.carriesWith lower name) = true ∨
      (lower name ≠ lower [] ∧ hasColonSpace name = false ∧ noCRLF name))
    (hclear : firstCarrierClear lower name [] es = true) :
    GetHeaderWith lower (SetHeaderWith lower j name value) name1 d = value := by
  cases hfind : es.find? (Entry.carriesWith lower name) with
  | some e =>
    obtain ⟨he, pre, post, hsplit, hpre⟩ := List.find?_eq_some.1 hfind
    have hpre1 : ∀ x ∈ pre, Entry.carriesWith lower name x = false :=
      fun x hx => by simpa using hpre x hx
    have hsuf : ∀ x ∈ pre, ¬ e.render <:+ x.render := fun x hx =>
      firstCarrierClear_split lower name es [] pre post e hclear hsplit hpre1 he x (Or.inr hx)
    subst hsplit
    have hset := SetHeader_renderBlock_found lower j pre post e name value hj hwf hpre1 he hsuf
    have hew := hwf e (by simp)
    have hwf1 : ∀ x ∈ pre ++ (e.1, value) :: post, x.WellFormed := by
      intro x hx
      rcases List.mem_append.1 hx with hx | hx
      · exact hwf x (by simp [hx])
      · rcases List.mem_cons.1 hx with hx | hx
        · subst hx
          exact ⟨hew.1, hew.2.1, hv⟩
        · exact hwf x (by simp [hx])
    rw [GetHeaderWith_renderBlock lower _ _ hset hwf1, carries_congr lower name name1 hcase]
    have hfind1 : (pre ++ (e.1, value) :: post).find? (Entry.carriesWith lower name) =
        some (e.1, value) := by
      rw [List.find?_eq_some]
      exact ⟨by simpa [Entry.carriesWith] using he, pre, post, rfl,
        fun a ha => by simp [hpre1 a ha]⟩
    rw [hfind1]
  | none =>
    have hnone : ∀ x ∈ es, Entry.carriesWith lower name x = false := by
      intro x hx
      have := List.find?_eq_none.1 hfind x hx
      simpa using this
    rcases hname with hany | ⟨hne, hcs, hcr⟩
    · obtain ⟨x, hx, hc⟩ := List.any_eq_true.1 hany
      rw [hnone x hx] at hc
      exact absurd hc (by simp)
    · have hset : (SetHeaderWith lower j name value).Headers =
          renderBlock (es ++ [(name, value)]) := by
        show setHeaderLoop lower name value j.Headers (splitCRLF j.Headers) = _
        rw [hj, splitCRLF_renderBlock _ hwf, setHeaderLoop_lines _ _ _ _ _ hwf, hfind]
        simp [hne, renderBlock_append, renderBlock]
      have hwf1 : ∀ x ∈ es ++ [(name, value)], x.WellFormed := by
        intro x hx
        rcases List.mem_append.1 hx with hx | hx
        · exact hwf x hx
        · simp only [List.mem_singleton] at hx
          subst hx
          exact ⟨hcs, hcr, hv⟩
      rw [GetHeaderWith_renderBlock lower _ _ hset hwf1, carries_congr lower name name1 hcase]
      have hfind1 : (es ++ [(name, value)]).find? (Entry.carriesWith lower name) =
          some (name, value) := by
        rw [List.find?_eq_some]
        exact ⟨by simp [Entry.carriesWith], es, [], rfl, fun a ha => by simp [hnone a ha]⟩
      rw [hfind1]

theorem RemoveHeader_renderBlock (lower : Str → Str) (j : JSRequest) (es : List Entry)
    (hj : j.Headers = renderBlock es) (hwf : ∀ e ∈ es, e.WellFormed)
    (name : Str) (hne : lower name ≠ lower [])
    (hclear : firstCarrierClear lower name [] es = true) :
    (RemoveHeaderWith lower j name).Headers =
      renderBlock (es.eraseP (Entry.carriesWith lower name)) := by
  cases hfind : es.find? (Entry.carriesWith lower name) with
  | some e =>
    obtain ⟨he, pre, post, hsplit, hpre⟩ := List.find?_eq_some.1 hfind
    have hpre1 : ∀ x ∈ pre, Entry.carriesWith lower name x = false :=
      fun x hx => by simpa using hpre x hx
    have hsuf : ∀ x ∈ pre, ¬ e.render <:+ x.render := fun x hx =>
      firstCarrierClear_split lower name es [] pre post e hclear hsplit hpre1 he x (Or.inr hx)
    subst hsplit
    rw [RemoveHeader_renderBlock_found lower j pre post e name hj hwf hpre1 he hsuf,
      List.eraseP_append_right _ (fun b hb => by simp [hpre1 b hb]),
      List.eraseP_cons_of_pos he]
  | none =>
    have hnone : ∀ x, x ∈ es → ¬ Entry.carriesWith lower name x = true :=
      List.find?_eq_none.1 hfind
    rw [List.eraseP_of_forall_not hnone]
    show removeHeaderLoop lower name j.Headers (splitCRLF j.Headers) = _
    rw [hj, splitCRLF_renderBlock _ hwf, removeHeaderLoop_lines _ _ _ _ hwf, hfind]
    simp [hne]

theorem find?_eraseP_of_countP_le_one (p : Entry → Bool) (es : List Entry)
    (h : es.countP p ≤ 1) : (es.eraseP p).find? p = none := by
  induction es with
  | nil => rfl
  | cons e es ih =>
    by_cases he : p e = true
    · rw [List.eraseP_cons_of_pos he, List.find?_eq_none]
      rw [List.countP_cons_of_pos _ _ he] at h
      have h0 : es.countP p = 0 := by omega
      exact List.countP_eq_zero.1 h0
    · rw [List.countP_cons_of_neg _ _ he] at h
      rw [List.eraseP_cons_of_neg he, List.find?_cons_of_neg _ he]
      exact ih h

/-- C7 (amended): with Go `strings.ToLower` as `lower`, on a well-formed
block, for a name that differs from the empty name (also after `lower`), and
provided the text of the first entry carrying the name is the tail of no
earlier entry: `RemoveHeader(name)` deletes the first entry carrying the name
and nothing else; `GetHeader(name, D)` then returns the value of the first
entry still carrying the name, or `D` when there is none; so it returns `D`
when at most one entry of the block carried the name. -/
theorem remove_then_get_header (lower : Str → Str) (j : JSRequest) (es : List Entry)
    (hj : j.Headers = renderBlock es) (hwf : ∀ e ∈ es, e.WellFormed)
    (name D : Str) (hne : lower name ≠ lower [])
    (hclear : firstCarrierClear lower name [] es = true) :
    (RemoveHeaderWith lower j name).Headers =
      renderBlock (es.eraseP (Entry.carriesWith lower name)) ∧
    GetHeaderWith lower (RemoveHeaderWith lower j name) name D =
      firstValueOrWith lower name D (es.eraseP (Entry.carriesWith lower name)) ∧
    (es.countP (Entry.carriesWith lower name) ≤ 1 →
      GetHeaderWith lower (RemoveHeaderWith lower j name) name D = D) := by
  have hrem := RemoveHeader_renderBlock lower j es hj hwf name hne hclear
  have hwf1 : ∀ x ∈ es.eraseP (Entry.carriesWith lower name), x.WellFormed :=
    fun x hx => hwf x (List.mem_of_mem_eraseP hx)
  have hget := GetHeaderWith_renderBlock lower _ _ hrem hwf1 name D
  simp only [hne, if_false] at hget
  refine ⟨hrem, hget, fun hone => ?_⟩
  rw [hget, find?_eraseP_of_countP_le_one _ _ hone]

/-! ## Header accessors: instances -/

/-- Witness of C5: setting `foo` on `Host: a.b`, `Foo: 1`, `foo: 2` and
reading `FOO` back. -/
theorem set_then_get_header_witness :
    GetHeader (SetHeader (withHeaders (renderBlock sampleEntries)) "foo".toList "9".toList)
      "FOO".toList "d".toList = "9".toList :=
  set_then_get_header ToLower (withHeaders (renderBlock sampleEntries)) sampleEntries rfl
    (by decide) "foo".toList "FOO".toList "9".toList "d".toList (by decide) (by decide)
    (by decide) (by decide)

/-- Counterexample to C5 as stated: on the empty block `SetHeader("a: b", "v")`
stores the line `a: b: v`, which reads back as name `a` and value `b: v`, so
`GetHeader("a: b", "d")` returns `d` and not `v`. -/
theorem set_then_get_header_counterexample :
    (SetHeader (withHeaders (renderBlock [])) "a: b".toList "v".toList).Headers =
      "a: b: v\r\n".toList ∧
    GetHeader (SetHeader (withHeaders (renderBlock [])) "a: b".toList "v".toList)
      "a: b".toList "d".toList = "d".toList ∧
    GetHeader (SetHeader (withHeaders (renderBlock [])) "a: b".toList "v".toList)
      "a: b".toList "d".toList ≠ "v".toList := by
  decide

/-- C6 at the block `X-Foo: 1`, `Foo: 1`: `SetHeader("Foo", "2")` rewrites the
tail of the first entry, giving `X-Foo: 2`, `Foo: 1`, where the claim has
`X-Foo: 1`, `Foo: 2`. -/
theorem set_header_hits_earlier_tail :
    (SetHeader (withHeaders (renderBlock overlapEntries)) "Foo".toList "2".toList).Headers =
      "X-Foo: 2\r\nFoo: 1\r\n".toList ∧
    renderBlock (setFirstValue "Foo".toList "2".toList overlapEntries) =
      "X-Foo: 1\r\nFoo: 2\r\n".toList ∧
    (SetHeader (withHeaders (renderBlock overlapEntries)) "Foo".toList "2".toList).Headers ≠
      renderBlock (setFirstValue "Foo".toList "2".toList overlapEntries) := by
  decide

/-- Witness of C7: removing `host` from `Host: a.b`, `Foo: 1`, `foo: 2`. -/
theorem remove_then_get_header_witness :
    GetHeader (RemoveHeader (withHeaders (renderBlock sampleEntries)) "host".toList)
      "host".toList "D".toList = "D".toList :=
  (remove_then_get_header ToLower (withHeaders (renderBlock sampleEntries)) sampleEntries rfl
    (by decide) "host".toList "D".toList (by decide) (by decide)).2.2 (by decide)

/-- Counterexample to C7 as stated: on the block `Foo: 1`, `Foo: 2`, after
`RemoveHeader("Foo")` the lookup `GetHeader("Foo", "D")` returns `2`, the
value of the entry that is left. -/
theorem remove_then_get_header_counterexample :
    (RemoveHeader (withHeaders (renderBlock twinEntries)) "Foo".toList).Headers =
      "Foo: 2\r\n".toList ∧
    GetHeader (RemoveHeader (withHeaders (renderBlock twinEntries)) "Foo".toList)
      "Foo".toList "D".toList = "2".toList ∧
    GetHeader (RemoveHeader (withHeaders (renderBlock twinEntries)) "Foo".toList)
      "Foo".toList "D".toList ≠ "D".toList := by
  decide

/-- C8 at the empty name: on the empty block and on the block `Foo: 1`,
`Foo: 2`, where no entry has the empty name and the claim has the default
`d`, `GetHeader("", "d")` returns the empty string: the blank piece that
`strings.Split` leaves after the last terminator is taken for an entry with
empty name and empty value. -/
theorem get_header_blank_piece_answers_empty_name :
    firstValueOr [] "d".toList [] = "d".toList ∧
    GetHeader (withHeaders (renderBlock [])) [] "d".toList = [] ∧
    firstValueOr [] "d".toList twinEntries = "d".toList ∧
    GetHeader (withHeaders (renderBlock twinEntries)) [] "d".toList = [] := by
  decide

/-! ## Form parsing -/

theorem cutChar_eq_segmentPair (seg : Str) : cutChar '=' seg = segmentPair seg := by
  induction seg with
  | nil => rfl
  | cons c s ih =>
    by_cases hc : c = '='
    · simp [cutChar, segmentPair, hc]
    · rw [cutChar, if_neg hc, ih]
      by_cases hs : '=' ∈ s
      · have hm : '=' ∈ c :: s := by simp [hs]
        simp [segmentPair, hs, hm, hc, List.takeWhile_cons, List.dropWhile_cons]
      · have hm : '=' ∉ c :: s := by
          simp only [List.mem_cons, not_or]
          exact ⟨fun h => hc h.symm, hs⟩
        simp [segmentPair, hs, hm]

theorem parseFormLoop_lookup (parts : List Str) (form : Form) (k : Str) :
    parseFormLoop parts form k =
      match ((parts.filterMap segmentPair).reverse.find? (fun p => p.1 = k)) with
      | some p => some ((QueryUnescape p.2).getD p.2)
      | none => form k := by
  induction parts generalizing form with
  | nil => rfl
  | cons part parts ih =>
    cases hcut : segmentPair part with
    | none =>
      have h1 : parseFormLoop (part :: parts) form = parseFormLoop parts form := by
        simp [parseFormLoop, splitN2, cutChar_eq_segmentPair, hcut]
      rw [h1, ih, List.filterMap_cons_none hcut]
    | some ab =>
      obtain ⟨a, b⟩ := ab
      have h1 : parseFormLoop (part :: parts) form =
          parseFormLoop parts (form.set a ((QueryUnescape b).getD b)) := by
        cases hq : QueryUnescape b <;>
          simp [parseFormLoop, splitN2, cutChar_eq_segmentPair, hcut, hq]
      rw [h1, ih, List.filterMap_cons_some hcut, List.reverse_cons, List.find?_append]
      cases hf : (parts.filterMap segmentPair).reverse.find? (fun p => decide (p.1 = k)) with
      | some p => simp
      | none =>
        by_cases hk : a = k
        · simp [Form.set, hk]
        · have hk1 : ¬ k = a := fun h => hk h.symm
          simp [Form.set, hk, hk1]

/-! ### The decoding of the code and percent-decoding -/

theorem hexDigit_eq_unhex (c : Char) : hexDigit c = unhex c := by
  by_cases hmem : c ∈ hexDigits
  · simp only [hexDigits, String.toList, List.mem_cons, List.mem_singleton, List.not_mem_nil,
      or_false] at hmem
    rcases hmem with h | h | h | h | h | h | h | h | h | h | h | h | h | h | h | h | h | h | h |
      h | h | h <;> subst h <;> decide
  · have hidx : hexDigits.indexOf c = 22 := List.indexOf_eq_length.2 hmem
    have hnot : ∀ lo hi : Nat, (∀ n, lo ≤ n → n ≤ hi → Char.ofNat n ∈ hexDigits) →
        ¬ (lo ≤ c.toNat ∧ c.toNat ≤ hi) := by
      intro lo hi hall hc
      apply hmem
      have := hall c.toNat hc.1 hc.2
      rwa [Char.ofNat_toNat] at this
    have h1 : ¬ ('0' ≤ c ∧ c ≤ '9') :=
      hnot 48 57 (fun n h1 h2 => by interval_cases n <;> decide)
    have h2 : ¬ ('a' ≤ c ∧ c ≤ 'f') :=
      hnot 97 102 (fun n h1 h2 => by interval_cases n <;> decide)
    have h3 : ¬ ('A' ≤ c ∧ c ≤ 'F') :=
      hnot 65 70 (fun n h1 h2 => by interval_cases n <;> decide)
    simp only [hexDigit, hidx, unhex, h1, h2, h3, if_false]
    rfl

theorem splitChar_ne_nil (sep : Char) (s : Str) : ∃ p ps, splitChar sep s = p :: ps := by
  induction s with
  | nil => exact ⟨[], [], rfl⟩
  | cons c s ih =>
    obtain ⟨p, ps, h⟩ := ih
    by_cases hc : c = sep
    · exact ⟨[], splitChar sep s, by simp [splitChar, hc]⟩
    · exact ⟨c :: p, ps, by simp [splitChar, hc, h, consHead]⟩

theorem percentDecode_cons_of_ne (c : Char) (s : Str) (hc : c ≠ '%') :
    percentDecode (c :: s) = (percentDecode s).map (fun r => c :: r) := by
  obtain ⟨p, ps, h⟩ := splitChar_ne_nil '%' s
  simp only [percentDecode, splitChar, hc, if_false, h, consHead]
  cases decodeEscapes ps <;> simp

theorem percentDecode_percent (s : Str) :
    percentDecode ('%' :: s) = decodeEscapes (splitChar '%' s) := by
  simp only [percentDecode, splitChar, if_true]
  cases decodeEscapes (splitChar '%' s) <;> simp

theorem hexDigit_percent : hexDigit '%' = none := by decide

theorem decodeEscapes_two (a b : Char) (t : Str) :
    decodeEscapes (splitChar '%' (a :: b :: t)) =
      match hexDigit a, hexDigit b with
      | some x, some y => (percentDecode t).map (fun r => Char.ofNat (16 * x + y) :: r)
      | _, _ => none := by
  by_cases ha : a = '%'
  · subst ha
    simp [splitChar, decodeEscapes, decodeEscape, hexDigit_percent]
  · by_cases hb : b = '%'
    · subst hb
      rw [hexDigit_percent]
      simp only [splitChar, ha, if_false, if_true, consHead, decodeEscapes, decodeEscape]
      cases hexDigit a <;> rfl
    · obtain ⟨p, ps, h⟩ := splitChar_ne_nil '%' t
      simp only [splitChar, ha, hb, if_false, h, consHead, decodeEscapes, decodeEscape,
        percentDecode]
      cases hexDigit a <;> cases hexDigit b <;> cases decodeEscapes ps <;> simp

theorem hexDigit_plusToSpace (c : Char) :
    hexDigit (if c = '+' then ' ' else c) = unhex c := by
  by_cases hc : c = '+'
  · subst hc
    decide
  · rw [if_neg hc, hexDigit_eq_unhex]

/-- The decoding of the code, `url.QueryUnescape`, is percent-decoding of the
text with every `+` read as a space. -/
theorem QueryUnescape_eq (v : Str) : QueryUnescape v = percentDecode (plusToSpace v) := by
  have hmain : ∀ n : Nat, ∀ v : Str, v.length ≤ n →
      QueryUnescape v = percentDecode (plusToSpace v) := by
    intro n
    induction n with
    | zero =>
      intro v hv
      have : v = [] := List.length_eq_zero.1 (Nat.le_zero.1 hv)
      subst this
      rfl
    | succ n ih =>
      intro v hv
      cases v with
      | nil => rfl
      | cons c s =>
        have hs : s.length ≤ n := by simpa using hv
        by_cases hp : c = '%'
        · subst hp
          have hsp : plusToSpace ('%' :: s) = '%' :: plusToSpace s := by
            simp [plusToSpace]
          rw [hsp, percentDecode_percent]
          cases s with
          | nil => rfl
          | cons a s1 =>
            cases s1 with
            | nil =>
              simp only [QueryUnescape, if_true, plusToSpace, List.map_cons, List.map_nil]
              by_cases ha : (if a = '+' then ' ' else a) = '%'
              · simp [splitChar, ha, decodeEscapes, decodeEscape]
              · simp [splitChar, ha, decodeEscapes, decodeEscape, consHead]
            | cons b t =>
              have ht : t.length ≤ n := by
                simp only [List.length_cons] at hs
                omega
              have hsp2 : plusToSpace (a :: b :: t) =
                  (if a = '+' then ' ' else a) :: (if b = '+' then ' ' else b) ::
                    plusToSpace t := by
                simp [plusToSpace]
              rw [hsp2, decodeEscapes_two, hexDigit_plusToSpace, hexDigit_plusToSpace,
                ← ih t ht]
              simp only [QueryUnescape, if_true]
        · by_cases hq : c = '+'
          · subst hq
            have hsp : plusToSpace ('+' :: s) = ' ' :: plusToSpace s := by
              simp [plusToSpace]
            rw [hsp, percentDecode_cons_of_ne _ _ (by decide), ← ih s hs]
            conv_lhs => unfold QueryUnescape
            simp only [hp, if_false, if_true]
          · have hsp : plusToSpace (c :: s) = c :: plusToSpace s := by
              simp [plusToSpace, hq]
            rw [hsp, percentDecode_cons_of_ne _ _ hp, ← ih s hs]
            conv_lhs => unfold QueryUnescape
            simp only [hp, hq, if_false]
  exact hmain v.length v (Nat.le_refl _)

theorem mem_of_mem_splitChar (sep : Char) (s : Str) :
    ∀ p ∈ splitChar sep s, ∀ c ∈ p, c ∈ s := by
  induction s with
  | nil =>
    intro p hp c hc
    simp only [splitChar, List.mem_singleton] at hp
    subst hp
    exact hc
  | cons d s ih =>
    intro p hp c hc
    by_cases hd : d = sep
    · simp only [splitChar, hd, if_true, List.mem_cons] at hp
      rcases hp with hp | hp
      · subst hp
        simp at hc
      · exact List.mem_cons_of_mem _ (ih p hp c hc)
    · obtain ⟨q, qs, hq⟩ := splitChar_ne_nil sep s
      simp only [splitChar, hd, if_false, hq, consHead, List.mem_cons] at hp
      rcases hp with hp | hp
      · subst hp
        rcases List.mem_cons.1 hc with hc | hc
        · simp [hc]
        · exact List.mem_cons_of_mem _ (ih q (by simp [hq]) c hc)
      · exact List.mem_cons_of_mem _ (ih p (by simp [hq, hp]) c hc)

theorem segmentPair_value_mem (seg a b : Str) (h : segmentPair seg = some (a, b)) :
    ∀ c ∈ b, c ∈ seg := by
  intro c hc
  unfold segmentPair at h
  by_cases hm : '=' ∈ seg
  · simp only [hm, if_true, Option.some.injEq, Prod.mk.injEq] at h
    rw [← h.2] at hc
    exact (List.dropWhile_sublist _).subset (List.mem_of_mem_tail hc)
  · simp [hm] at h

theorem plusToSpace_of_not_mem (v : Str) (h : '+' ∉ v) : plusToSpace v = v := by
  induction v with
  | nil => rfl
  | cons c v ih =>
    have hc : c ≠ '+' := fun hc => h (by simp [hc])
    have hv : '+' ∉ v := fun hv => h (by simp [hv])
    simp only [plusToSpace, List.map_cons, hc, if_false, List.cons.injEq, true_and]
    exact ih hv

theorem ParseForm_eq_amendedForm (j : JSRequest) (hb : j.Body ≠ []) :
    (ParseForm j).1 = amendedForm j.Body := by
  funext k
  simp only [ParseForm, hb, if_false, amendedForm, specFormWith]
  rw [parseFormLoop_lookup]
  cases ((splitChar '&' j.Body).filterMap segmentPair).reverse.find? (fun p => decide (p.1 = k))
    <;> simp [emptyForm, formDecodeOrRaw, QueryUnescape_eq]

theorem amendedForm_eq_claimedForm (body : Str) (h : '+' ∉ body) :
    amendedForm body = claimedForm body := by
  funext k
  simp only [amendedForm, claimedForm, specFormWith]
  cases hf : ((splitChar '&' body).filterMap segmentPair).reverse.find?
      (fun p => decide (p.1 = k)) with
  | none => rfl
  | some p =>
    have hp : p ∈ (splitChar '&' body).filterMap segmentPair :=
      List.mem_reverse.1 (List.mem_of_find?_eq_some hf)
    obtain ⟨seg, hseg, hpair⟩ := List.mem_filterMap.1 hp
    have hplus : '+' ∉ p.2 := fun hc =>
      h (mem_of_mem_splitChar '&' body seg hseg _ (segmentPair_value_mem seg p.1 p.2 hpair _ hc))
    simp only [Option.map_some', formDecodeOrRaw, percentDecodeOrRaw,
      plusToSpace_of_not_mem _ hplus]

/-- C9 (amended): for a non-empty body `ParseForm` returns the mapping in
which each key is bound by the last `&`-separated segment that holds `=` with
that text before its first `=`, to the percent-decoding of the text after
that `=` with every `+` read as a space, or to that text unchanged when
decoding fails; for a body without `+` this is the mapping of the claim as
stated; and the body `a=1&b=hello%20world&badpair` yields the mapping of `a`
to `1` and `b` to `hello world` only. -/
theorem parse_form_mapping :
    (∀ j : JSRequest, j.Body ≠ [] → (ParseForm j).1 = amendedForm j.Body) ∧
    (∀ j : JSRequest, j.Body ≠ [] → '+' ∉ j.Body → (ParseForm j).1 = claimedForm j.Body) ∧
    (∀ j : JSRequest, j.Body = "a=1&b=hello%20world&badpair".toList →
      (ParseForm j).1 =
        (emptyForm.set "a".toList "1".toList).set "b".toList "hello world".toList) := by
  refine ⟨ParseForm_eq_amendedForm, ?_, ?_⟩
  · intro j hb hplus
    rw [ParseForm_eq_amendedForm j hb, amendedForm_eq_claimedForm _ hplus]
  · intro j hb
    have hne : j.Body ≠ [] := by rw [hb]; decide
    have h1 : (ParseForm j).1 = parseFormLoop (splitChar '&' j.Body) emptyForm := by
      simp only [ParseForm, hne, if_false]
    rw [h1, hb]
    rfl

/-- Witness of C9: the value found under `b` for the body
`a=1&b=hello%20world&badpair`, and the value found under `k` for the body
`k=a+b`. -/
theorem parse_form_mapping_witness :
    (ParseForm { sampleRequest with Body := "a=1&b=hello%20world&badpair".toList }).1
      "b".toList = some "hello world".toList ∧
    claimedForm "a=1&b=hello%20world&badpair".toList "badpair".toList = none ∧
    amendedForm "k=a+b".toList "k".toList = some "a b".toList :=
  ⟨by
    rw [parse_form_mapping.2.2
      { sampleRequest with Body := "a=1&b=hello%20world&badpair".toList } rfl]
    decide,
   by
    rw [← parse_form_mapping.2.1
      { sampleRequest with Body := "a=1&b=hello%20world&badpair".toList } (by decide)
      (by decide)]
    decide,
   by
    rw [← parse_form_mapping.1 { sampleRequest with Body := "k=a+b".toList } (by decide)]
    decide⟩

/-- Counterexample to C9 as stated: for the body `k=a+b` the key `k` is bound
to `a b` by `ParseForm`, where the percent-decoding of `a+b` is `a+b`. -/
theorem parse_form_mapping_counterexample :
    percentDecode "a+b".toList = some "a+b".toList ∧
    claimedForm "k=a+b".toList "k".toList = some "a+b".toList ∧
    (ParseForm { sampleRequest with Body := "k=a+b".toList }).1 "k".toList =
      some "a b".toList ∧
    (ParseForm { sampleRequest with Body := "k=a+b".toList }).1 "k".toList ≠
      claimedForm "k=a+b".toList "k".toList := by
  decide

/-! ## Reconstruction -/

/-- C10 at the block `X-A: 1`, `X-A: 2`, as built from an inbound request
with the two values `1` and `2` under `X-A`: the request `ToRequest` builds
carries for `X-A` the value `2` alone; the value `1` of the first entry is
overwritten by the second `Header.Set`. -/
theorem to_request_keeps_last_value_only :
    (NewJSRequest sampleInbound).Headers = "X-A: 1\r\nX-A: 2\r\n".toList ∧
    (NewJSRequest sampleInbound).Headers =
      renderBlock [("X-A".toList, "1".toList), ("X-A".toList, "2".toList)] ∧
    outValues (ToRequest sampleUrlParses (NewJSRequest sampleInbound)) "X-A".toList =
      some ["2".toList] ∧
    "1".toList ∉
      (outValues (ToRequest sampleUrlParses (NewJSRequest sampleInbound)) "X-A".toList).getD
        [] := by
  decide

/-! ## Construction -/

theorem serializeValues_headers (name : Str) (values : List Str) (h c : Str) :
    (serializeValues name values (h, c)).1 =
      h ++ renderBlock (values.map (fun v => (name, v))) := by
  induction values generalizing h c with
  | nil => simp [serializeValues, renderBlock]
  | cons v vs ih =>
    rw [serializeValues, ih]
    simp [renderBlock, Entry.render]

theorem serializeHeader_headers (hs : List (Str × List Str)) (acc : Str × Str) :
    (serializeHeader hs acc).1 = acc.1 ++ renderBlock (headerPairs hs) := by
  induction hs generalizing acc with
  | nil => simp [serializeHeader, headerPairs, renderBlock]
  | cons nv rest ih =>
    obtain ⟨name, values⟩ := nv
    obtain ⟨h, c⟩ := acc
    rw [serializeHeader, ih, serializeValues_headers]
    simp [headerPairs, renderBlock_append]

theorem headerPairs_append (xs ys : List (Str × List Str)) :
    headerPairs (xs ++ ys) = headerPairs xs ++ headerPairs ys := by
  induction xs with
  | nil => rfl
  | cons x xs ih =>
    obtain ⟨name, values⟩ := x
    simp [headerPairs, ih]

theorem NewJSRequest_Headers (req : Request) :
    (NewJSRequest req).Headers = renderBlock (headerPairs req.Header) := by
  show (serializeHeader req.Header ([], [])).1 = _
  rw [serializeHeader_headers]
  rfl

/-- C12: the block built by `NewJSRequest` is the concatenation of one line
`N: v` per (name, value) pair of the header map and nothing else; the lines
of a name `N` with values `v1 .. vn` stand next to each other in list order,
between the lines of the names visited before and after; and for a map with
the single name `N` the block is exactly the lines of `N`. -/
theorem new_request_header_block (req : Request) :
    (NewJSRequest req).Headers = renderBlock (headerPairs req.Header) ∧
    (∀ (pre post : List (Str × List Str)) (N : Str) (vs : List Str),
      req.Header = pre ++ (N, vs) :: post →
      (NewJSRequest req).Headers =
        renderBlock (headerPairs pre) ++ renderBlock (vs.map (fun v => (N, v))) ++
          renderBlock (headerPairs post)) ∧
    (∀ (N : Str) (vs : List Str), req.Header = [(N, vs)] →
      (NewJSRequest req).Headers = renderBlock (vs.map (fun v => (N, v)))) := by
  refine ⟨NewJSRequest_Headers req, ?_, ?_⟩
  · intro pre post N vs h
    rw [NewJSRequest_Headers, h, headerPairs_append]
    simp [headerPairs, renderBlock_append]
  · intro N vs h
    rw [NewJSRequest_Headers, h]
    simp [headerPairs]

/-- Witness of C12: the header map with the values `1` and `2` under `X-A`
gives the block `X-A: 1`, `X-A: 2`. -/
theorem new_request_header_block_witness :
    (NewJSRequest sampleInbound).Headers = "X-A: 1\r\nX-A: 2\r\n".toList :=
  ((new_request_header_block sampleInbound).2.2 "X-A".toList ["1".toList, "2".toList]
    rfl).trans (by decide)

theorem splitChar_append_sep (sep : Char) (host rest : Str) (h : sep ∉ host) :
    splitChar sep (host ++ sep :: rest) = host :: splitChar sep rest := by
  induction host with
  | nil => simp [splitChar]
  | cons c host ih =>
    have hc : c ≠ sep := fun hc => h (by simp [hc])
    have hh : sep ∉ host := fun hh => h (by simp [hh])
    simp [splitChar, hc, ih hh, consHead]

/-- For a host text without colon the text before the first colon of
`host:port` is the host. -/
theorem client_of_plain_host (req : Request) (host port : Str) (h : ':' ∉ host)
    (hr : req.RemoteAddr = host ++ ':' :: port) : (NewJSRequest req).Client = host := by
  show (splitChar ':' req.RemoteAddr).headD [] = host
  rw [hr, splitChar_append_sep _ _ _ h]
  rfl

/-- C13 at the peer address `[::1]:8080`: the port suffix is `:8080` and the
host is `[::1]`, but `Client` is `[`, the text before the first colon. -/
theorem client_of_bracketed_address :
    (NewJSRequest { sampleInbound with RemoteAddr := "[::1]:8080".toList }).Client =
      "[".toList ∧
    "[::1]:8080".toList = "[::1]".toList ++ ":".toList ++ "8080".toList ∧
    (NewJSRequest { sampleInbound with RemoteAddr := "[::1]:8080".toList }).Client ≠
      "[::1]".toList := by
  decide

/-! ## Body materialisation: failure and repetition -/

/-- C14: when draining the stream fails, `ReadBody` returns the empty string
and every field of the object keeps its value (only the stream inside the
underlying request has been consumed), so `WasModified` answers as before. -/
theorem read_body_failure_keeps_object (j : JSRequest) (h : j.req.Body.broken = true) :
    (ReadBody j).1 = [] ∧
    { (ReadBody j).2 with req := j.req } = j ∧
    (ReadBody j).2.Body = j.Body ∧ (ReadBody j).2.bodyRead = j.bodyRead ∧
    (ReadBody j).2.refHash = j.refHash ∧ NewHash (ReadBody j).2 = NewHash j ∧
    WasModified (ReadBody j).2 = WasModified j := by
  simp [ReadBody, ReadAll, h, WasModified, NewHash]

/-- Witness of C14: the sample request over a stream that fails. -/
theorem read_body_failure_keeps_object_witness :
    (ReadBody { sampleRequest with req := { sampleRequest.req with
      Body := { pending := "a=1".toList, broken := true } } }).1 = [] :=
  (read_body_failure_keeps_object { sampleRequest with req := { sampleRequest.req with
      Body := { pending := "a=1".toList, broken := true } } } rfl).1

theorem ParseForm_state (j : JSRequest) :
    (ParseForm j).2 = if j.Body = [] then { (ReadBody j).2 with Body := (ReadBody j).1 } else j :=
  rfl

theorem ReadBody_of_buffer (j : JSRequest) (b : Str) (h : j.req.Body = NewBuffer b) :
    (ReadBody j).1 = b ∧ (ReadBody j).2.Body = b ∧ (ReadBody j).2.bodyRead = true ∧
    (ReadBody j).2.req = j.req := by
  obtain ⟨c, m, v, sc, p, q, hn, ct, hd, bd, rq, rh, br⟩ := j
  obtain ⟨ra, me, pma, pmi, u, ho, hdr, body⟩ := rq
  simp only at h
  subst h
  simp [ReadBody, ReadAll, NewBuffer]

theorem step_req_of_buffer (j : JSRequest) (b : Str) (op : Op) (hop : op.isOwn = true)
    (h : j.req.Body = NewBuffer b) : (step j op).req = j.req := by
  cases op <;> simp only [step, SetHeader, RemoveHeader, SetHeaderWith, RemoveHeaderWith, UpdateHash]
  · exact (ReadBody_of_buffer j b h).2.2.2
  · rw [ParseForm_state]
    by_cases hb : j.Body = []
    · simp only [hb, if_true]
      exact (ReadBody_of_buffer j b h).2.2.2
    · simp only [hb, if_false]
  · exact absurd hop (by simp [Op.isOwn])

theorem run_req_of_buffer (ops : List Op) (j : JSRequest) (b : Str)
    (hops : ∀ op ∈ ops, op.isOwn = true) (h : j.req.Body = NewBuffer b) :
    (run j ops).req = j.req := by
  induction ops generalizing j with
  | nil => rfl
  | cons op ops ih =>
    have h1 := step_req_of_buffer j b op (hops op (by simp)) h
    have h2 := ih (step j op) (fun o ho => hops o (by simp [ho])) (by rw [h1]; exact h)
    show (run (step j op) ops).req = j.req
    rw [h2, h1]

/-- C15 (amended): after a `ReadBody` that succeeded, in every state the
object reaches through its own operations (field assignments and method
calls), a further `ReadBody` drains the rebuffered stream again: it returns
the bytes of the first read and stores them in `Body`, whatever `Body` held;
so it returns the cached `Body` and leaves it unchanged exactly when `Body`
still holds those bytes. -/
theorem read_body_again_rereads (j : JSRequest) (hok : j.req.Body.broken = false)
    (ops : List Op) (hops : ∀ op ∈ ops, op.isOwn = true) :
    (ReadBody (run (ReadBody j).2 ops)).1 = (ReadBody j).1 ∧
    (ReadBody (run (ReadBody j).2 ops)).2.Body = (ReadBody j).1 ∧
    (ReadBody (run (ReadBody j).2 ops)).2.bodyRead = true ∧
    ((ReadBody (run (ReadBody j).2 ops)).1 = (run (ReadBody j).2 ops).Body ↔
      (run (ReadBody j).2 ops).Body = (ReadBody j).1) ∧
    ((ReadBody (run (ReadBody j).2 ops)).2.Body = (run (ReadBody j).2 ops).Body ↔
      (run (ReadBody j).2 ops).Body = (ReadBody j).1) := by
  have h1 : (ReadBody j).2.req.Body = NewBuffer j.req.Body.pending := by
    simp [ReadBody, ReadAll, hok]
  have h2 : (ReadBody j).1 = j.req.Body.pending := by
    simp [ReadBody, ReadAll, hok]
  have h3 : (run (ReadBody j).2 ops).req.Body = NewBuffer j.req.Body.pending := by
    rw [run_req_of_buffer ops _ _ hops h1, h1]
  have h4 := ReadBody_of_buffer _ _ h3
  rw [h2, h4.1, h4.2.1]
  exact ⟨rfl, rfl, h4.2.2.1, eq_comm, eq_comm⟩

/-- Witness of C15: reading the stream `abc` twice, with `Body` set to `xyz`
in between. -/
theorem read_body_again_rereads_witness :
    (ReadBody (run (ReadBody abcRequest).2 [Op.assignBody "xyz".toList])).1 =
      (ReadBody abcRequest).1 :=
  (read_body_again_rereads abcRequest rfl [Op.assignBody "xyz".toList] (by decide)).1

/-- Counterexample to C15 as stated: after a first `ReadBody` over the stream
`abc` and the assignment `Body = "xyz"`, the object has `bodyRead` set and
`Body` is `xyz`, yet the next `ReadBody` returns `abc` and overwrites `Body`
with `abc`. -/
theorem read_body_again_rereads_counterexample :
    abcEdited = run (ReadBody abcRequest).2 [Op.assignBody "xyz".toList] ∧
    abcEdited.bodyRead = true ∧ abcEdited.Body = "xyz".toList ∧
    (ReadBody abcEdited).1 = "abc".toList ∧
    (ReadBody abcEdited).1 ≠ abcEdited.Body ∧
    (ReadBody abcEdited).2.Body = "abc".toList ∧
    (ReadBody abcEdited).2.Body ≠ abcEdited.Body := by
  decide

/-! ## Invariants of the state machine -/

theorem fresh_unmodified (req : Request) : WasModified (NewJSRequest req) = false := by
  simp [NewJSRequest, UpdateHash, WasModified, NewHash]

theorem ReadBody_bodyRead (j : JSRequest) (h : j.bodyRead = true) :
    (ReadBody j).2.bodyRead = true := by
  cases hb : j.req.Body.broken <;> simp [ReadBody, ReadAll, hb, h]

theorem ReadBody_refHash (j : JSRequest) : (ReadBody j).2.refHash = j.refHash := by
  cases hb : j.req.Body.broken <;> simp [ReadBody, ReadAll, hb]

theorem step_bodyRead (j : JSRequest) (op : Op) (h : j.bodyRead = true) :
    (step j op).bodyRead = true := by
  cases op <;> simp only [step, SetHeader, RemoveHeader, SetHeaderWith, RemoveHeaderWith, UpdateHash, h]
  · exact ReadBody_bodyRead j h
  · rw [ParseForm_state]
    by_cases hb : j.Body = []
    · simp only [hb, if_true]
      exact ReadBody_bodyRead j h
    · simp only [hb, if_false, h]

theorem run_bodyRead (ops : List Op) (j : JSRequest) (h : j.bodyRead = true) :
    (run j ops).bodyRead = true := by
  induction ops generalizing j with
  | nil => exact h
  | cons op ops ih => exact ih (step j op) (step_bodyRead j op h)

/-- C16: from a state with `bodyRead` set, after any sequence of field
assignments, method calls and replacements of the underlying stream,
`bodyRead` is still set and `WasModified` returns true; in particular
`UpdateHash` does not make such an object report unmodified. -/
theorem body_read_is_sticky (j : JSRequest) (h : j.bodyRead = true) (ops : List Op) :
    (run j ops).bodyRead = true ∧ WasModified (run j ops) = true ∧
    WasModified (UpdateHash j) = true := by
  refine ⟨run_bodyRead ops j h, ?_, ?_⟩
  · simp [WasModified, run_bodyRead ops j h]
  · simp [WasModified, UpdateHash, h]

/-- Witness of C16: the object that has read `abc`, then an assignment to
`Body`, a checkpoint, a form parse and another read. -/
theorem body_read_is_sticky_witness :
    WasModified (run (ReadBody abcRequest).2
      [Op.assignBody [], Op.updateHash, Op.parseForm, Op.readBody, Op.updateHash]) = true :=
  (body_read_is_sticky (ReadBody abcRequest).2 rfl
    [Op.assignBody [], Op.updateHash, Op.parseForm, Op.readBody, Op.updateHash]).2.1

/-- C17: every operation other than `UpdateHash` leaves the reference
fingerprint as it was, in particular `SetHeader`, `RemoveHeader`, `ReadBody`
and `ParseForm`, which do change the object; and `WasModified` (like
`GetHeader` and `ToRequest`) leaves the whole object as it was. -/
theorem ref_hash_changes_only_by_update (j : JSRequest) :
    (∀ op : Op, op ≠ Op.updateHash → (step j op).refHash = j.refHash) ∧
    (∀ name value : Str, (SetHeader j name value).refHash = j.refHash) ∧
    (∀ name : Str, (RemoveHeader j name).refHash = j.refHash) ∧
    (ReadBody j).2.refHash = j.refHash ∧
    (ParseForm j).2.refHash = j.refHash ∧
    step j Op.wasModified = j ∧
    (∀ name deflt : Str, step j (Op.getHeader name deflt) = j) ∧
    step j Op.toRequest = j := by
  have hparse : (ParseForm j).2.refHash = j.refHash := by
    rw [ParseForm_state]
    by_cases hb : j.Body = []
    · simp only [hb, if_true]
      exact ReadBody_refHash j
    · simp only [hb, if_false]
  refine ⟨?_, fun _ _ => rfl, fun _ => rfl, ReadBody_refHash j, hparse, rfl, fun _ _ => rfl, rfl⟩
  intro op hop
  cases op <;> simp only [step, SetHeader, RemoveHeader, SetHeaderWith, RemoveHeaderWith]
  · exact ReadBody_refHash j
  · exact hparse
  · exact absurd rfl hop

/-- Witness of C17: `ReadBody` on the request over the stream `abc`. -/
theorem ref_hash_changes_only_by_update_witness :
    (step abcRequest Op.readBody).refHash = abcRequest.refHash :=
  (ref_hash_changes_only_by_update abcRequest).1 Op.readBody (by decide)

/-- C18 at a method with a space: with `Method` assigned `GE T` on the sample
request, `http.NewRequest` returns no request whatever the address, and the
header replay dereferences it: `ToRequest` ends in a run-time panic. -/
theorem to_request_panics_on_bad_method (urlParses : Str → Bool) :
    validMethod "GE T".toList = false ∧
    NewRequest urlParses "GE T".toList
      (requestURL { sampleRequest with Method := "GE T".toList })
      (requestBody { sampleRequest with Method := "GE T".toList }) = none ∧
    ToRequest urlParses { sampleRequest with Method := "GE T".toList } = none := by
  refine ⟨by decide, rfl, rfl⟩

/-- C19: with `Path = "a."` and `Query = "b"` checkpointed, changing `Path` to
`a` and `Query` to `.b` changes both fields, but the fingerprint is the same
text, so `NewHash` equals `refHash` and `WasModified` returns false. -/
theorem fingerprint_collision :
    (collisionBefore.bodyRead = false ∧ collisionBefore.refHash = NewHash collisionBefore) ∧
    (collisionAfter.Path ≠ collisionBefore.Path ∧
      collisionAfter.Query ≠ collisionBefore.Query) ∧
    NewHash collisionAfter = collisionAfter.refHash ∧
    WasModified collisionAfter = false := by
  decide

/-- C20: on an object with empty `Body` whose stream read succeeds, such as a
freshly constructed one, `WasModified` is true after `ParseForm`, also when
the stream is empty and no field value has changed; on an object with
non-empty `Body`, `ParseForm` leaves the whole object, the underlying stream
included, as it was. -/
theorem parse_form_side_effect :
    (∀ req : Request, req.Body.broken = false →
      WasModified (NewJSRequest req) = false ∧
      WasModified (ParseForm (NewJSRequest req)).2 = true) ∧
    (∀ j : JSRequest, j.Body = [] → j.req.Body.broken = false →
      WasModified (ParseForm j).2 = true ∧
      (j.req.Body.pending = [] → { (ParseForm j).2 with bodyRead := j.bodyRead } = j)) ∧
    (∀ j : JSRequest, j.Body ≠ [] → (ParseForm j).2 = j) := by
  have hgen : ∀ j : JSRequest, j.Body = [] → j.req.Body.broken = false →
      WasModified (ParseForm j).2 = true ∧
      (j.req.Body.pending = [] → { (ParseForm j).2 with bodyRead := j.bodyRead } = j) := by
    intro j hb hok
    rw [ParseForm_state]
    simp only [hb, if_true]
    constructor
    · simp [ReadBody, ReadAll, hok, WasModified]
    · intro hp
      obtain ⟨c, m, v, sc, p, q, h, ct, hd, bd, rq, rh, br⟩ := j
      obtain ⟨ra, me, pma, pmi, u, ho, hdr, body⟩ := rq
      obtain ⟨pend, brk⟩ := body
      simp only at hb hok hp
      subst hb hok hp
      simp [ReadBody, ReadAll, NewBuffer]
  refine ⟨fun req hok => ⟨fresh_unmodified req, ?_⟩, hgen, ?_⟩
  · exact (hgen (NewJSRequest req) rfl hok).1
  · intro j hb
    rw [ParseForm_state]
    simp [hb]

/-- Witness of C20: the sample inbound request, whose stream is empty. -/
theorem parse_form_side_effect_witness :
    WasModified (ParseForm (NewJSRequest sampleInbound)).2 = true ∧
    (ParseForm { sampleRequest with Body := "a=1".toList }).2 =
      { sampleRequest with Body := "a=1".toList } :=
  ⟨(parse_form_side_effect.1 sampleInbound rfl).2,
   parse_form_side_effect.2.2 { sampleRequest with Body := "a=1".toList } (by decide)⟩

/-! ## Letter case and canonical header keys -/

theorem char_upper_or_lower_or_fixed (c : Char) :
    (∃ n, 65 ≤ n ∧ n ≤ 90 ∧ c = Char.ofNat n) ∨
    (∃ n, 97 ≤ n ∧ n ≤ 122 ∧ c = Char.ofNat n) ∨ (c.toLower = c ∧ c.toUpper = c) := by
  by_cases h1 : c.toNat ≥ 65 ∧ c.toNat ≤ 90
  · exact Or.inl ⟨c.toNat, h1.1, h1.2, (Char.ofNat_toNat c).symm⟩
  · by_cases h2 : c.toNat ≥ 97 ∧ c.toNat ≤ 122
    · exact Or.inr (Or.inl ⟨c.toNat, h2.1, h2.2, (Char.ofNat_toNat c).symm⟩)
    · refine Or.inr (Or.inr ⟨?_, ?_⟩)
      · simp only [Char.toLower, h1, if_false]
      · simp only [Char.toUpper, h2, if_false]

theorem char_case_laws (c : Char) :
    c.toLower.toUpper = c.toUpper ∧ c.toUpper.toLower = c.toLower ∧
    c.toLower.toLower = c.toLower ∧ isTokenByte c.toLower = isTokenByte c := by
  rcases char_upper_or_lower_or_fixed c with ⟨n, h1, h2, rfl⟩ | ⟨n, h1, h2, rfl⟩ | ⟨hl, hu⟩
  · interval_cases n <;> decide
  · interval_cases n <;> decide
  · rw [hl, hu, hl]
    exact ⟨rfl, rfl, rfl, rfl⟩

theorem canonicalLetters_ToLower (upper : Bool) (s : Str) :
    canonicalLetters upper (ToLower s) = canonicalLetters upper s := by
  induction s generalizing upper with
  | nil => rfl
  | cons c s ih =>
    have h := char_case_laws c
    cases upper
    · simp only [ToLower, List.map_cons, canonicalLetters, h.2.2.1, Bool.false_eq_true, if_false]
      exact congrArg _ (ih _)
    · simp only [ToLower, List.map_cons, canonicalLetters, h.1, if_true]
      exact congrArg _ (ih _)

theorem ToLower_canonicalLetters (upper : Bool) (s : Str) :
    ToLower (canonicalLetters upper s) = ToLower s := by
  induction s generalizing upper with
  | nil => rfl
  | cons c s ih =>
    have h := char_case_laws c
    have ih1 : ∀ u, List.map Char.toLower (canonicalLetters u s) = List.map Char.toLower s := ih
    cases upper
    · simp only [ToLower, List.map_cons, canonicalLetters, h.2.2.1, Bool.false_eq_true, if_false,
        ih1]
    · simp only [ToLower, List.map_cons, canonicalLetters, h.2.1, if_true, ih1]

theorem all_isTokenByte_ToLower (s : Str) :
    (ToLower s).all isTokenByte = s.all isTokenByte := by
  induction s with
  | nil => rfl
  | cons c s ih =>
    have ih1 : (List.map Char.toLower s).all isTokenByte = s.all isTokenByte := ih
    simp only [ToLower, List.map_cons, List.all_cons, (char_case_laws c).2.2.2, ih1]

/-- A header name is stored under the key `Content-Type` exactly when it
equals `content-type` ignoring case. -/
theorem canonical_eq_content_type (s : Str) :
    CanonicalMIMEHeaderKey s = "Content-Type".toList ↔ ToLower s = "content-type".toList := by
  constructor
  · intro h
    by_cases ht : s.all isTokenByte = true
    · rw [CanonicalMIMEHeaderKey, if_pos ht] at h
      rw [← ToLower_canonicalLetters true s, h]
      decide
    · rw [CanonicalMIMEHeaderKey, if_neg ht] at h
      rw [h]
      decide
  · intro h
    have ht : s.all isTokenByte = true := by
      rw [← all_isTokenByte_ToLower, h]
      decide
    rw [CanonicalMIMEHeaderKey, if_pos ht, ← canonicalLetters_ToLower, h]
    decide

/-! ## Reconstruction: the content type -/

theorem ToRequest_eq (urlParses : Str → Bool) (j : JSRequest) :
    ToRequest urlParses j =
      match replayHeaders (splitCRLF j.Headers)
        (NewRequest urlParses j.Method (requestURL j) (requestBody j), false) with
      | none => none
      | some (req1, hadType) =>
        if ¬ hadType ∧ j.ContentType ≠ [] then
          setOnRequest req1 "Content-Type".toList j.ContentType
        else some req1 := by
  unfold ToRequest requestBody requestURL
  by_cases hb : j.Body = [] <;> simp only [hb, if_true, if_false]

theorem isTypeLine_nil : isTypeLine [] = false := by decide

theorem lastTypeValue_cons (line : Str) (rest : List Str) :
    lastTypeValue (line :: rest) =
      match lastTypeValue rest with
      | some v => some v
      | none => if isTypeLine line then some (ReplaceAllString Group.value line) else none := by
  unfold lastTypeValue
  by_cases hl : isTypeLine line = true
  · rw [List.filter_cons_of_pos hl, List.getLast?_cons]
    cases (rest.filter isTypeLine).getLast? <;> simp [hl]
  · rw [List.filter_cons_of_neg hl]
    cases (rest.filter isTypeLine).getLast? <;> simp [hl]

theorem hadType_step (name : Str) (h : Bool) :
    (if ToLower name = "content-type".toList then true else h) =
      (h || decide (ToLower name = "content-type".toList)) := by
  by_cases ht : ToLower name = "content-type".toList
  · rw [if_pos ht, decide_eq_true ht, Bool.or_true]
  · rw [if_neg ht, decide_eq_false ht, Bool.or_false]

theorem Header_Set_content_type (H : Header) (name value : Str) :
    Header.Set H name value "Content-Type".toList =
      if ToLower name = "content-type".toList then some [value]
      else H "Content-Type".toList := by
  unfold Header.Set
  by_cases ht : ToLower name = "content-type".toList
  · rw [if_pos ((canonical_eq_content_type name).2 ht).symm, if_pos ht]
  · rw [if_neg (fun hc => ht ((canonical_eq_content_type name).1 hc.symm)), if_neg ht]

/-- The header replay on a request that was built: it ends without panic,
`hadType` records whether a line named `content-type` was seen, and the key
`Content-Type` holds the value of the last such line. -/
theorem replayHeaders_some (lines : List Str) :
    ∀ (r : OutRequest) (h : Bool), ∃ r1 : OutRequest,
      replayHeaders lines (some r, h) = some (some r1, h || lines.any isTypeLine) ∧
      r1.Header "Content-Type".toList =
        match lastTypeValue lines with
        | some v => some [v]
        | none => r.Header "Content-Type".toList := by
  induction lines with
  | nil => intro r h; exact ⟨r, by simp [replayHeaders], by simp [lastTypeValue]⟩
  | cons line rest ih =>
    intro r h
    by_cases hl : line = []
    · subst hl
      obtain ⟨r1, h1, h2⟩ := ih r h
      refine ⟨r1, ?_, ?_⟩
      · simp only [replayHeaders, ne_eq, not_true_eq_false, if_false, h1, List.any_cons,
          isTypeLine_nil, Bool.false_or]
      · rw [h2, lastTypeValue_cons]
        cases lastTypeValue rest <;> simp [isTypeLine_nil]
    · obtain ⟨r1, h1, h2⟩ := ih
        { r with Header := (Header.Set r.Header (ReplaceAllString Group.name line)
            (ReplaceAllString Group.value line)) }
        (if ToLower (ReplaceAllString Group.name line) = "content-type".toList then true else h)
      rw [hadType_step] at h1
      refine ⟨r1, ?_, ?_⟩
      · rw [replayHeaders, if_pos hl]
        show replayHeaders rest _ = _
        rw [hadType_step, h1, List.any_cons, Bool.or_assoc]
        rfl
      · rw [h2, lastTypeValue_cons]
        cases lastTypeValue rest with
        | some v => rfl
        | none =>
          show Header.Set r.Header _ _ "Content-Type".toList = _
          rw [Header_Set_content_type]
          by_cases ht : ToLower (ReplaceAllString Group.name line) = "content-type".toList
          · have hT : isTypeLine line = true := decide_eq_true ht
            rw [if_pos ht, hT]
            rfl
          · have hT : isTypeLine line = false := decide_eq_false ht
            rw [if_neg ht, hT]
            rfl

theorem lastTypeValue_isSome (lines : List Str) (h : ∃ line ∈ lines, isTypeLine line = true) :
    ∃ v, lastTypeValue lines = some v := by
  obtain ⟨line, hmem, hl⟩ := h
  have hne : lines.filter isTypeLine ≠ [] := by
    intro hc
    have : line ∈ lines.filter isTypeLine := List.mem_filter.2 ⟨hmem, hl⟩
    rw [hc] at this
    simp at this
  cases hg : (lines.filter isTypeLine).getLast? with
  | none => exact absurd (List.getLast?_eq_none_iff.1 hg) hne
  | some l => exact ⟨ReplaceAllString Group.value l, by simp [lastTypeValue, hg]⟩

theorem canonical_content_type :
    CanonicalMIMEHeaderKey "Content-Type".toList = "Content-Type".toList := by
  decide

theorem any_isTypeLine_false (lines : List Str)
    (h : ∀ line ∈ lines, isTypeLine line = false) : lines.any isTypeLine = false := by
  rw [Bool.eq_false_iff]
  intro hc
  obtain ⟨l, hl, ht⟩ := List.any_eq_true.1 hc
  rw [h l hl] at ht
  exact absurd ht (by decide)

/-- `ToRequest` when `http.NewRequest` built the request `r0`: the outcome in
terms of the header replay. -/
theorem ToRequest_of_built (urlParses : Str → Bool) (j : JSRequest) (r0 r1 : OutRequest)
    (hadType : Bool)
    (hnew : NewRequest urlParses j.Method (requestURL j) (requestBody j) = some r0)
    (hreplay : replayHeaders (splitCRLF j.Headers) (some r0, false) = some (some r1, hadType)) :
    ToRequest urlParses j =
      if ¬ hadType ∧ j.ContentType ≠ [] then
        some (some { r1 with Header := (Header.Set r1.Header "Content-Type".toList j.ContentType) })
      else some (some r1) := by
  rw [ToRequest_eq, hnew, hreplay]
  rfl

/-- C11: when `ToRequest` builds a request (the method is a token and the
address parses): if no line of the block has a name equal to `content-type`
ignoring case and the `ContentType` field is a non-empty `t`, the outbound
request has the header `Content-Type` equal to `t`; if the block has such a
line, the outcome does not depend on the `ContentType` field and the outbound
`Content-Type` is the value of the last such line of the block. -/
theorem content_type_from_field_or_block (urlParses : Str → Bool) (j : JSRequest)
    (hnew : (NewRequest urlParses j.Method (requestURL j) (requestBody j)).isSome = true) :
    ((∀ line ∈ splitCRLF j.Headers, isTypeLine line = false) → j.ContentType ≠ [] →
      outValues (ToRequest urlParses j) "Content-Type".toList = some [j.ContentType]) ∧
    ((∃ line ∈ splitCRLF j.Headers, isTypeLine line = true) →
      (∀ t : Str, ToRequest urlParses { j with ContentType := t } = ToRequest urlParses j) ∧
      ∃ v, lastTypeValue (splitCRLF j.Headers) = some v ∧
        outValues (ToRequest urlParses j) "Content-Type".toList = some [v]) := by
  obtain ⟨r0, hr0⟩ := Option.isSome_iff_exists.1 hnew
  obtain ⟨r1, h1, h2⟩ := replayHeaders_some (splitCRLF j.Headers) r0 false
  constructor
  · intro hno hct
    rw [any_isTypeLine_false _ hno] at h1
    rw [ToRequest_of_built urlParses j r0 r1 _ hr0 h1, if_pos ⟨by simp, hct⟩]
    simp only [outValues, Header.Values, Header.Set, if_true, Option.getD_some]
  · intro hex
    have hany : (splitCRLF j.Headers).any isTypeLine = true := List.any_eq_true.2 hex
    rw [hany] at h1
    have hj : ToRequest urlParses j = some (some r1) := by
      rw [ToRequest_of_built urlParses j r0 r1 _ hr0 h1, if_neg (by simp)]
    refine ⟨fun t => ?_, ?_⟩
    · rw [hj, ToRequest_of_built urlParses { j with ContentType := t } r0 r1 _ hr0 h1,
        if_neg (by simp)]
    · obtain ⟨v, hv⟩ := lastTypeValue_isSome _ hex
      refine ⟨v, hv, ?_⟩
      rw [hv] at h2
      rw [hj]
      simp only [outValues, Header.Values, canonical_content_type, h2, Option.getD_some]

/-- Witness of C11: the sample request, whose block is `Host: a.b` and whose
`ContentType` field is `text/plain`. -/
theorem content_type_from_field_or_block_witness :
    outValues (ToRequest sampleUrlParses sampleRequest) "Content-Type".toList =
      some ["text/plain".toList] :=
  (content_type_from_field_or_block sampleUrlParses sampleRequest (by decide)).1 (by decide)
    (by decide)

end JSRequestModel
